import Mathlib

/-!
Verification of the extended-table (yfm-table) markdown plugin:
a shallow embedding of src/transform/plugins/table/index.ts.

The source buffer is modelled as a list of characters; out-of-range
indexing, which in JavaScript yields NaN or undefined and makes every
character comparison false, is modelled with Option.  Host-supplied
line boundary tables (bMarks, tShift, eMarks) are total functions on
line numbers.
-/

/-- JavaScript charCodeAt / string indexing: none when out of range. -/
def charAt? (src : List Char) (pos : Nat) : Option Char := src.get? pos

def pipeChar : Char := '|'

def apostropheChar : Char := '`'

def hashChar : Char := '#'

def backSlashChar : Char := '\\'

def curlyBraceOpen : Char := '{'

def curlyBraceClose : Char := '}'

def dollarChar : Char := '$'

/-- checkCharsOrder: every character of the given order must match the
source starting at pos; a missing character fails the comparison. -/
def checkCharsOrder : List Char → List Char → Nat → Bool
  | [], _, _ => true
  | c :: rest, src, pos =>
    decide (charAt? src pos = some c) && checkCharsOrder rest src (pos + 1)

/-- The while loop of isEscaped: starting at pos - 1 and walking
downwards while the character is a backslash, this returns how many
steps the walk takes, i.e. the length of the run of consecutive
backslash characters immediately preceding pos. -/
def escapeWalk (src : List Char) : Nat → Nat
  | 0 => 0
  | k + 1 => if charAt? src k = some backSlashChar then escapeWalk src k + 1 else 0

/-- isEscaped: start - finalPos is escapeWalk + 1, and the source
tests that difference for evenness. -/
def isEscaped (src : List Char) (pos : Nat) : Bool :=
  (escapeWalk src pos + 1) % 2 == 0

def notEscaped (src : List Char) (pos : Nat) : Bool := !isEscaped src pos

def liquidVariableStartOrder : List Char := [curlyBraceOpen, curlyBraceOpen]

def isLiquidVariableStart (src : List Char) (pos : Nat) : Bool :=
  checkCharsOrder liquidVariableStartOrder src pos

def liquidVariableEndOrder : List Char := [curlyBraceClose, curlyBraceClose]

def isLiquidVariableEnd (src : List Char) (pos : Nat) : Bool :=
  checkCharsOrder liquidVariableEndOrder src pos

def codeBlockOrder : List Char := [apostropheChar, apostropheChar, apostropheChar]

def isCodeBlockOrder (src : List Char) (pos : Nat) : Bool :=
  checkCharsOrder codeBlockOrder src pos

def mathBlockOrder : List Char := [dollarChar, dollarChar]

def isMathBlockOrder (src : List Char) (pos : Nat) : Bool :=
  checkCharsOrder mathBlockOrder src pos

def openTableOrder : List Char := [hashChar, pipeChar]

def isOpenTableOrder (src : List Char) (pos : Nat) : Bool :=
  checkCharsOrder openTableOrder src pos

def rowStartOrder : List Char := [pipeChar, pipeChar]

def isRowOrder (src : List Char) (pos : Nat) : Bool :=
  checkCharsOrder rowStartOrder src pos && notEscaped src pos

def cellStartOrder : List Char := [pipeChar]

def isCellOrder (src : List Char) (pos : Nat) : Bool :=
  checkCharsOrder cellStartOrder src pos && notEscaped src pos && !isRowOrder src pos

def closeTableOrder : List Char := [pipeChar, hashChar]

def isCloseTableOrder (src : List Char) (pos : Nat) : Bool :=
  checkCharsOrder closeTableOrder src pos

/-- Specification-side notion: the count of consecutive backslash
characters immediately preceding a position, read off the prefix of
the buffer. -/
def specBackslashRun (src : List Char) (pos : Nat) : Nat :=
  (((src.take pos).reverse).takeWhile (fun c => c == backSlashChar)).length

theorem charAt?_eq_getElem (src : List Char) (k : Nat) (hk : k < src.length) :
    charAt? src k = some src[k] := by
  simp [charAt?, List.get?_eq_getElem?, List.getElem?_eq_getElem hk]

theorem charAt?_eq_none (src : List Char) (k : Nat) (hk : src.length ≤ k) :
    charAt? src k = none := by
  simp [charAt?, List.get?_eq_getElem?, List.getElem?_eq_none hk]

theorem escapeWalk_eq_specBackslashRun (src : List Char) (pos : Nat)
    (h : pos ≤ src.length) : escapeWalk src pos = specBackslashRun src pos := by
  induction pos with
  | zero => simp [escapeWalk, specBackslashRun]
  | succ k ih =>
    have hk : k < src.length := h
    have hat := charAt?_eq_getElem src k hk
    have hrev : (src.take (k + 1)).reverse = src[k] :: (src.take k).reverse := by
      rw [List.take_succ]
      simp [List.getElem?_eq_getElem hk]
    rw [escapeWalk]
    by_cases hc : src[k] = backSlashChar
    · rw [if_pos (by rw [hat, hc]), ih (Nat.le_of_lt hk)]
      simp [specBackslashRun, hrev, hc]
    · rw [if_neg (by rw [hat]; exact fun hx => hc (Option.some_injective _ hx))]
      simp [specBackslashRun, hrev, hc]

theorem isEscaped_iff_odd (src : List Char) (pos : Nat) (h : pos ≤ src.length) :
    isEscaped src pos = true ↔ specBackslashRun src pos % 2 = 1 := by
  rw [isEscaped, ← escapeWalk_eq_specBackslashRun src pos h]
  constructor
  · intro hb
    have : (escapeWalk src pos + 1) % 2 = 0 := by simpa using hb
    omega
  · intro hb
    have : (escapeWalk src pos + 1) % 2 = 0 := by omega
    simpa using this

theorem checkCharsOrder_head_lt (src : List Char) (pos : Nat) (c : Char) (rest : List Char)
    (h : checkCharsOrder (c :: rest) src pos = true) : pos < src.length := by
  simp only [checkCharsOrder, Bool.and_eq_true, decide_eq_true_eq] at h
  by_contra hge
  rw [charAt?_eq_none src pos (Nat.le_of_not_lt hge)] at h
  exact Option.noConfusion h.1

theorem checkCharsOrder_cell_lt (src : List Char) (pos : Nat)
    (h : checkCharsOrder cellStartOrder src pos = true) : pos < src.length :=
  checkCharsOrder_head_lt src pos pipeChar [] (by simpa [cellStartOrder] using h)

theorem checkCharsOrder_row_lt (src : List Char) (pos : Nat)
    (h : checkCharsOrder rowStartOrder src pos = true) : pos < src.length :=
  checkCharsOrder_head_lt src pos pipeChar [pipeChar] (by simpa [rowStartOrder] using h)

/-- C1: a row marker or cell marker at a position is treated as a
delimiter if and only if the count of consecutive backslash characters
immediately preceding the position is even; an odd count means the
marker is escaped and not a delimiter. -/
theorem claim1_marker_escape_parity (src : List Char) (pos : Nat) :
    (checkCharsOrder rowStartOrder src pos = true →
      (isRowOrder src pos = true ↔ specBackslashRun src pos % 2 = 0)) ∧
    (checkCharsOrder cellStartOrder src pos = true →
      checkCharsOrder rowStartOrder src pos = false →
      (isCellOrder src pos = true ↔ specBackslashRun src pos % 2 = 0)) := by
  constructor
  · intro hrow
    have hlt := checkCharsOrder_row_lt src pos hrow
    have hesc := isEscaped_iff_odd src pos (Nat.le_of_lt hlt)
    constructor
    · intro h
      simp only [isRowOrder, Bool.and_eq_true, notEscaped, Bool.not_eq_true'] at h
      have : ¬ (specBackslashRun src pos % 2 = 1) := by
        intro h1
        have := hesc.mpr h1
        rw [this] at h
        exact absurd h.2 (by simp)
      omega
    · intro h
      simp only [isRowOrder, Bool.and_eq_true, notEscaped, Bool.not_eq_true']
      refine ⟨hrow, ?_⟩
      by_contra hne
      have : isEscaped src pos = true := by
        cases hb : isEscaped src pos
        · exact absurd hb hne
        · rfl
      have := hesc.mp this
      omega
  · intro hcell hrow
    have hlt := checkCharsOrder_cell_lt src pos hcell
    have hesc := isEscaped_iff_odd src pos (Nat.le_of_lt hlt)
    have hro : isRowOrder src pos = false := by
      simp [isRowOrder, hrow]
    constructor
    · intro h
      simp only [isCellOrder, Bool.and_eq_true, notEscaped, Bool.not_eq_true'] at h
      have : ¬ (specBackslashRun src pos % 2 = 1) := by
        intro h1
        have := hesc.mpr h1
        rw [this] at h
        exact absurd h.1.2 (by simp)
      omega
    · intro h
      simp only [isCellOrder, Bool.and_eq_true, notEscaped, Bool.not_eq_true']
      refine ⟨⟨hcell, ?_⟩, by simp [hro]⟩
      by_contra hne
      have : isEscaped src pos = true := by
        cases hb : isEscaped src pos
        · exact absurd hb hne
        · rfl
      have := hesc.mp this
      omega

/-- Witness for C1: two backslashes (an even count) before a row
marker leave it a delimiter. -/
theorem claim1_marker_escape_parity_witness :
    isRowOrder ['\\', '\\', '|', '|'] 2 = true :=
  ((claim1_marker_escape_parity ['\\', '\\', '|', '|'] 2).1 (by decide)).mpr (by decide)

/-! ## Inline span skippers -/

structure SkipInlineResult where
  end_ : Nat
  steps : Nat
deriving DecidableEq, Repr

/-- indexOf of JavaScript strings, starting the search at a given
position: the least index at or after the start holding the character. -/
def indexOfFrom (src : List Char) (c : Char) (k : Nat) : Option Nat :=
  if h : k < src.length then
    if src.get ⟨k, h⟩ = c then some k else indexOfFrom src c (k + 1)
  else none
termination_by src.length - k

theorem indexOfFrom_bounds (src : List Char) (c : Char) (k m : Nat)
    (h : indexOfFrom src c k = some m) : k ≤ m ∧ m < src.length := by
  rw [indexOfFrom] at h
  split at h
  · next hklt =>
    split at h
    · cases h
      exact ⟨Nat.le_refl _, hklt⟩
    · have := indexOfFrom_bounds src c (k + 1) m h
      omega
  · cases h
termination_by src.length - k

theorem indexOfFrom_char (src : List Char) (c : Char) (k m : Nat)
    (h : indexOfFrom src c k = some m) : charAt? src m = some c := by
  rw [indexOfFrom] at h
  split at h
  · next hklt =>
    split at h
    · next hc =>
      cases h
      rw [charAt?_eq_getElem src k hklt]
      rw [List.get_eq_getElem] at hc
      exact congrArg some hc
    · exact indexOfFrom_char src c (k + 1) m h
  · cases h
termination_by src.length - k

theorem indexOfFrom_min (src : List Char) (c : Char) (k m : Nat)
    (h : indexOfFrom src c k = some m) :
    ∀ j, k ≤ j → j < m → charAt? src j ≠ some c := by
  rw [indexOfFrom] at h
  split at h
  · next hklt =>
    split at h
    · cases h
      intro j h1 h2 _
      omega
    · next hne =>
      intro j h1 h2 hc
      rcases Nat.eq_or_lt_of_le h1 with rfl | hlt
      · rw [charAt?_eq_getElem src k hklt] at hc
        apply hne
        rw [List.get_eq_getElem]
        exact Option.some_injective _ hc
      · exact indexOfFrom_min src c (k + 1) m h j hlt h2 hc
  · cases h
termination_by src.length - k

theorem indexOfFrom_none (src : List Char) (c : Char) (k : Nat)
    (h : indexOfFrom src c k = none) :
    ∀ j, k ≤ j → charAt? src j ≠ some c := by
  rw [indexOfFrom] at h
  split at h
  · next hklt =>
    split at h
    · cases h
    · next hne =>
      intro j h1 hc
      rcases Nat.eq_or_lt_of_le h1 with rfl | hlt
      · rw [charAt?_eq_getElem src k hklt] at hc
        apply hne
        rw [List.get_eq_getElem]
        exact Option.some_injective _ hc
      · exact indexOfFrom_none src c (k + 1) h j hlt hc
  · next hge =>
    intro j h1 hc
    rw [charAt?_eq_none src j (by omega)] at hc
    exact Option.noConfusion hc
termination_by src.length - k

/-- The marker-length scan of skipInlineCode: advance while the
position is below max and holds a backtick. -/
def backtickRunEnd (src : List Char) (max p : Nat) : Nat :=
  if p < max ∧ charAt? src p = some apostropheChar then backtickRunEnd src max (p + 1) else p
termination_by max - p

theorem backtickRunEnd_ge (src : List Char) (max p : Nat) : p ≤ backtickRunEnd src max p := by
  rw [backtickRunEnd]
  split
  · have := backtickRunEnd_ge src max (p + 1)
    omega
  · exact Nat.le_refl p
termination_by max - p

theorem backtickRunEnd_le_length (src : List Char) (max p : Nat) (h : p ≤ src.length) :
    backtickRunEnd src max p ≤ src.length := by
  rw [backtickRunEnd]
  split
  · next hcond =>
    have hlt : p < src.length := by
      by_contra hge
      rw [charAt?_eq_none src p (Nat.le_of_not_lt hge)] at hcond
      exact Option.noConfusion hcond.2
    exact backtickRunEnd_le_length src max (p + 1) hlt
  · exact h
termination_by max - p

/-- The closer-search loop of skipInlineCode: repeatedly take the next
backtick anywhere in the remaining string (the indexOf call is not
bounded by max), scan its run clamped at max, and accept the first run
whose scanned length equals the opener length. -/
def codeCloserSearch (src : List Char) (max start openerLength matchEnd : Nat) :
    Option SkipInlineResult :=
  match hidx : indexOfFrom src apostropheChar matchEnd with
  | none => none
  | some matchStart =>
    let newEnd := backtickRunEnd src max (matchStart + 1)
    if newEnd - matchStart = openerLength then
      some { end_ := newEnd, steps := newEnd - start }
    else codeCloserSearch src max start openerLength newEnd
termination_by src.length - matchEnd
decreasing_by
  have hb := indexOfFrom_bounds src apostropheChar matchEnd matchStart hidx
  have hr := backtickRunEnd_ge src max (matchStart + 1)
  omega

/-- skipInlineCode, translated from the source: a backtick at pos that
is not escaped opens a run; the scan then searches for a closing run
of equal length. -/
def skipInlineCode (src : List Char) (pos max : Nat) : Option SkipInlineResult :=
  if charAt? src pos ≠ some apostropheChar then none
  else if pos > 0 ∧ isEscaped src pos = true then none
  else
    let start := pos
    let runEnd := backtickRunEnd src max pos
    let openerLength := runEnd - start
    codeCloserSearch src max start openerLength runEnd

/-- skipInlineMath closer-search loop: walk the dollar signs in order,
skipping escaped ones, and decide on the first unescaped one. -/
def mathCloserSearch (src : List Char) (max pos m : Nat) : Option SkipInlineResult :=
  match hidx : indexOfFrom src dollarChar m with
  | none => none
  | some match_ =>
    if match_ > max then none
    else if isEscaped src match_ = true then mathCloserSearch src max pos (match_ + 1)
    else
      let prevChar := charAt? src (match_ - 1)
      let nextChar := if match_ + 1 ≤ max then charAt? src (match_ + 1) else none
      if prevChar = some ' ' ∨ prevChar = some '\t' ∨
          (∃ c, nextChar = some c ∧ '0' ≤ c ∧ c ≤ '9') then none
      else some { end_ := match_ + 1, steps := match_ + 1 - (pos + 1) }
termination_by src.length - m
decreasing_by
  have hb := indexOfFrom_bounds src dollarChar m match_ hidx
  omega

/-- skipInlineMath, translated from the source. -/
def skipInlineMath (src : List Char) (pos max : Nat) : Option SkipInlineResult :=
  if charAt? src pos ≠ some dollarChar then none
  else if pos > 0 ∧ notEscaped src pos = false then none
  else
    let nextChar := if pos + 1 ≤ max then charAt? src (pos + 1) else none
    if nextChar = some ' ' ∨ nextChar = some '\t' then none
    else if nextChar = some dollarChar then some { end_ := pos + 2, steps := 2 }
    else mathCloserSearch src max pos (pos + 1)

theorem codeCloserSearch_sound (src : List Char) (max start openerLength matchEnd : Nat)
    (r : SkipInlineResult) (h : codeCloserSearch src max start openerLength matchEnd = some r) :
    r.steps = r.end_ - start ∧
    ∃ ms, matchEnd ≤ ms ∧ charAt? src ms = some apostropheChar ∧
      r.end_ = backtickRunEnd src max (ms + 1) ∧
      backtickRunEnd src max (ms + 1) - ms = openerLength := by
  rw [codeCloserSearch] at h
  split at h
  · cases h
  · next matchStart hidx =>
    have hb := indexOfFrom_bounds src apostropheChar matchEnd matchStart hidx
    have hc := indexOfFrom_char src apostropheChar matchEnd matchStart hidx
    dsimp only at h
    split at h
    · next heq =>
      cases h
      exact ⟨rfl, matchStart, hb.1, hc, rfl, heq⟩
    · have hr := backtickRunEnd_ge src max (matchStart + 1)
      obtain ⟨h1, ms, h2, h3, h4, h5⟩ :=
        codeCloserSearch_sound src max start openerLength
          (backtickRunEnd src max (matchStart + 1)) r h
      exact ⟨h1, ms, by omega, h3, h4, h5⟩
termination_by src.length - matchEnd
decreasing_by omega

theorem codeCloserSearch_no_backtick (src : List Char) (max start openerLength matchEnd : Nat)
    (h : ∀ j, matchEnd ≤ j → charAt? src j ≠ some apostropheChar) :
    codeCloserSearch src max start openerLength matchEnd = none := by
  rw [codeCloserSearch]
  split
  · rfl
  · next matchStart hidx =>
    exact absurd (indexOfFrom_char src apostropheChar matchEnd matchStart hidx)
      (h matchStart (indexOfFrom_bounds src apostropheChar matchEnd matchStart hidx).1)

/-- Within a clamped backtick run every position scans to the same run
end: moving the scan start forward inside the run (or to its end) does
not change the result. -/
theorem backtickRunEnd_from (src : List Char) (max p q : Nat) (h1 : p ≤ q)
    (h2 : q ≤ backtickRunEnd src max p) :
    backtickRunEnd src max q = backtickRunEnd src max p := by
  rcases Nat.eq_or_lt_of_le h1 with rfl | hlt
  · rfl
  · have hE : backtickRunEnd src max p =
        if p < max ∧ charAt? src p = some apostropheChar then
          backtickRunEnd src max (p + 1) else p := by
      rw [backtickRunEnd]
    by_cases hcond : p < max ∧ charAt? src p = some apostropheChar
    · rw [if_pos hcond] at hE
      rw [hE] at h2 ⊢
      exact backtickRunEnd_from src max (p + 1) q hlt h2
    · rw [if_neg hcond] at hE
      rw [hE] at h2
      omega
termination_by max - p
decreasing_by omega

/-- Specification side of the closer search: position k starts a
closing run relative to the search origin m when it holds a backtick
and is not strictly inside the clamped run of any earlier backtick at
or after m, and the clamped length of the run it starts equals the
opening run length. -/
def runStartEq (src : List Char) (max m openerLength k : Nat) : Prop :=
  charAt? src k = some apostropheChar
  ∧ (∀ p, p < k → m ≤ p → charAt? src p = some apostropheChar →
      backtickRunEnd src max (p + 1) ≤ k)
  ∧ backtickRunEnd src max (k + 1) - k = openerLength

instance (src : List Char) (max m openerLength k : Nat) :
    Decidable (runStartEq src max m openerLength k) := by
  unfold runStartEq
  infer_instance

/-- The first position at or after k that starts a closing run of the
required clamped length. -/
def firstEqualRun (src : List Char) (max m openerLength k : Nat) : Option Nat :=
  if h : k < src.length then
    if runStartEq src max m openerLength k then some k
    else firstEqualRun src max m openerLength (k + 1)
  else none
termination_by src.length - k

/-- Specification-side closer search, written from the amended claim:
the first backtick run at or after m whose clamped length equals the
opening run length yields the match; no such run anywhere in the rest
of the string yields no-match. -/
def specCodeCloser (src : List Char) (max start openerLength m : Nat) :
    Option SkipInlineResult :=
  match firstEqualRun src max m openerLength m with
  | none => none
  | some ms => some { end_ := backtickRunEnd src max (ms + 1),
                      steps := backtickRunEnd src max (ms + 1) - start }

theorem firstEqualRun_found (src : List Char) (max m openerLength k : Nat)
    (hk : k < src.length) (hc : runStartEq src max m openerLength k) :
    firstEqualRun src max m openerLength k = some k := by
  rw [firstEqualRun, dif_pos hk, if_pos hc]

theorem firstEqualRun_skip (src : List Char) (max m openerLength k : Nat)
    (hc : ¬ runStartEq src max m openerLength k) :
    firstEqualRun src max m openerLength k = firstEqualRun src max m openerLength (k + 1) := by
  by_cases hk : k < src.length
  · rw [firstEqualRun, dif_pos hk, if_neg hc]
  · have h2 : ¬ (k + 1 < src.length) := by omega
    rw [firstEqualRun, dif_neg hk, firstEqualRun, dif_neg h2]

theorem firstEqualRun_none (src : List Char) (max m openerLength k : Nat)
    (h : ∀ j, k ≤ j → ¬ runStartEq src max m openerLength j) :
    firstEqualRun src max m openerLength k = none := by
  by_cases hk : k < src.length
  · rw [firstEqualRun_skip src max m openerLength k (h k (Nat.le_refl k))]
    exact firstEqualRun_none src max m openerLength (k + 1) (fun j hj => h j (by omega))
  · rw [firstEqualRun, dif_neg hk]
termination_by src.length - k
decreasing_by omega

theorem firstEqualRun_congr_range (src : List Char) (max m openerLength a b : Nat)
    (hab : a ≤ b) (h : ∀ k, a ≤ k → k < b → ¬ runStartEq src max m openerLength k) :
    firstEqualRun src max m openerLength a = firstEqualRun src max m openerLength b := by
  rcases Nat.eq_or_lt_of_le hab with rfl | hlt
  · rfl
  · rw [firstEqualRun_skip src max m openerLength a (h a (Nat.le_refl a) hlt)]
    exact firstEqualRun_congr_range src max m openerLength (a + 1) b hlt
      (fun k h1 h2 => h k (by omega) h2)
termination_by b - a
decreasing_by omega

theorem firstEqualRun_congr_origin (src : List Char) (max m m2 openerLength a : Nat)
    (h : ∀ k, a ≤ k →
      (runStartEq src max m openerLength k ↔ runStartEq src max m2 openerLength k)) :
    firstEqualRun src max m openerLength a = firstEqualRun src max m2 openerLength a := by
  by_cases hk : a < src.length
  · by_cases hc : runStartEq src max m openerLength a
    · rw [firstEqualRun_found src max m openerLength a hk hc,
        firstEqualRun_found src max m2 openerLength a hk ((h a (Nat.le_refl a)).mp hc)]
    · rw [firstEqualRun_skip src max m openerLength a hc,
        firstEqualRun_skip src max m2 openerLength a
          (fun hc2 => hc ((h a (Nat.le_refl a)).mpr hc2))]
      exact firstEqualRun_congr_origin src max m m2 openerLength (a + 1)
        (fun k hk2 => h k (by omega))
  · rw [firstEqualRun, dif_neg hk, firstEqualRun, dif_neg hk]
termination_by src.length - a
decreasing_by omega

/-- The closer-search loop is exactly the specification search: it
returns the first run start of equal clamped length, and no-match
exactly when none exists in the rest of the string. -/
theorem codeCloserSearch_spec (src : List Char) (max start openerLength m : Nat) :
    codeCloserSearch src max start openerLength m
      = specCodeCloser src max start openerLength m := by
  rw [codeCloserSearch]
  split
  · next hidx =>
    have hnone : firstEqualRun src max m openerLength m = none :=
      firstEqualRun_none src max m openerLength m
        (fun j hj hrs => indexOfFrom_none src apostropheChar m hidx j hj hrs.1)
    simp only [specCodeCloser, hnone]
  · next c0 hidx =>
    have hb := indexOfFrom_bounds src apostropheChar m c0 hidx
    have hch := indexOfFrom_char src apostropheChar m c0 hidx
    have hmin := indexOfFrom_min src apostropheChar m c0 hidx
    have hge := backtickRunEnd_ge src max (c0 + 1)
    dsimp only
    by_cases hlen : backtickRunEnd src max (c0 + 1) - c0 = openerLength
    · rw [if_pos hlen]
      have h1 : firstEqualRun src max m openerLength m = some c0 := by
        rw [firstEqualRun_congr_range src max m openerLength m c0 hb.1
          (fun k h1 h2 hrs => hmin k h1 h2 hrs.1)]
        exact firstEqualRun_found src max m openerLength c0 hb.2
          ⟨hch, fun p h1 h2 hp => absurd hp (hmin p h2 h1), hlen⟩
      simp only [specCodeCloser, h1]
    · rw [if_neg hlen]
      rw [codeCloserSearch_spec src max start openerLength (backtickRunEnd src max (c0 + 1))]
      have hfail : ∀ k, m ≤ k → k < backtickRunEnd src max (c0 + 1) →
          ¬ runStartEq src max m openerLength k := by
        intro k h1 h2 hrs
        rcases Nat.lt_trichotomy k c0 with hk | rfl | hk
        · exact hmin k h1 hk hrs.1
        · exact hlen hrs.2.2
        · have := hrs.2.1 c0 hk hb.1 hch
          omega
      have horig : ∀ k, backtickRunEnd src max (c0 + 1) ≤ k →
          (runStartEq src max m openerLength k
            ↔ runStartEq src max (backtickRunEnd src max (c0 + 1)) openerLength k) := by
        intro k hk
        constructor
        · rintro ⟨h1, h2, h3⟩
          exact ⟨h1, fun p hp1 hp2 hp3 => h2 p hp1 (by omega) hp3, h3⟩
        · rintro ⟨h1, h2, h3⟩
          refine ⟨h1, ?_, h3⟩
          intro p hpk hmp hpc
          rcases Nat.lt_trichotomy p c0 with hp | rfl | hp
          · exact absurd hpc (hmin p hmp hp)
          · omega
          · by_cases hpe : p < backtickRunEnd src max (c0 + 1)
            · have := backtickRunEnd_from src max (c0 + 1) (p + 1) (by omega) (by omega)
              omega
            · exact h2 p hpk (by omega) hpc
      have hswitch : firstEqualRun src max m openerLength m
          = firstEqualRun src max (backtickRunEnd src max (c0 + 1)) openerLength
              (backtickRunEnd src max (c0 + 1)) := by
        rw [firstEqualRun_congr_range src max m openerLength m
          (backtickRunEnd src max (c0 + 1)) (by omega) hfail]
        exact firstEqualRun_congr_origin src max m (backtickRunEnd src max (c0 + 1))
          openerLength (backtickRunEnd src max (c0 + 1)) horig
      rw [specCodeCloser, specCodeCloser, hswitch]
termination_by src.length - m
decreasing_by omega

/-- Counterexample to C5: the closer search of skipInlineCode is not
bounded by lineEnd.  On the buffer with a backtick opening at 0,
lineEnd 2, and the only closing backtick at position 4 (at or beyond
lineEnd), the scan still returns a match ending at 5, although the
claim requires no-match because no equal-length closing run exists
before lineEnd (position 1 holds the only character before lineEnd
after the opener, and it is not a backtick). -/
theorem claim5_counterexample :
    skipInlineCode ['`', 'a', '\n', 'x', '`'] 0 2 = some { end_ := 5, steps := 5 } ∧
    (∀ j, 1 ≤ j → j < 2 → charAt? ['`', 'a', '\n', 'x', '`'] j ≠ some apostropheChar) ∧
    2 < 5 := by
  refine ⟨?_, ?_, by omega⟩
  · rw [skipInlineCode]
    norm_num [charAt?, apostropheChar]
    have hrun1 : backtickRunEnd ['`', 'a', '\n', 'x', '`'] 2 0 = 1 := by
      rw [backtickRunEnd, if_pos (by decide)]
      rw [backtickRunEnd, if_neg (by decide)]
    rw [hrun1]
    have hidx : indexOfFrom ['`', 'a', '\n', 'x', '`'] apostropheChar 1 = some 4 := by
      simp [indexOfFrom, apostropheChar]
      decide
    rw [codeCloserSearch, hidx]
    have hrun2 : backtickRunEnd ['`', 'a', '\n', 'x', '`'] 2 5 = 5 := by
      rw [backtickRunEnd, if_neg (by decide)]
    dsimp only
    rw [hrun2]
    norm_num
  · intro j h1 h2
    have : j = 1 := by omega
    subst this
    decide

/-- C5 (amended): if the character at pos is an unescaped backtick,
skipInlineCode scans the opening backtick run (clamped at lineEnd) and
then searches the remainder of the whole string, not stopping at
lineEnd: it returns exactly what the specification search returns,
namely the end offset and character distance of the FIRST backtick run
(a backtick not strictly inside the clamped run of an earlier one)
whose clamped length equals the clamped opening run length, and
no-match exactly when no such run exists anywhere in the rest of the
string.  In particular a closer located at or beyond lineEnd can yield
a match. -/
theorem claim5_skipInlineCode_amended (src : List Char) (pos max : Nat)
    (hchar : charAt? src pos = some apostropheChar)
    (hesc : ¬(pos > 0 ∧ isEscaped src pos = true)) :
    skipInlineCode src pos max
      = specCodeCloser src max pos (backtickRunEnd src max pos - pos)
          (backtickRunEnd src max pos) := by
  rw [skipInlineCode, if_neg (fun hn => hn hchar), if_neg hesc]
  exact codeCloserSearch_spec src max pos (backtickRunEnd src max pos - pos)
    (backtickRunEnd src max pos)

/-- Witness for the amended C5 on the counterexample buffer: opener at
0, lineEnd 2, the only closing backtick at position 4. -/
theorem claim5_skipInlineCode_amended_witness :
    skipInlineCode ['`', 'a', '\n', 'x', '`'] 0 2
      = specCodeCloser ['`', 'a', '\n', 'x', '`'] 2 0
          (backtickRunEnd ['`', 'a', '\n', 'x', '`'] 2 0 - 0)
          (backtickRunEnd ['`', 'a', '\n', 'x', '`'] 2 0) :=
  claim5_skipInlineCode_amended ['`', 'a', '\n', 'x', '`'] 0 2 (by decide) (by decide)

/-- Specification-side: the least position at or after k holding an
unescaped dollar sign. -/
def firstUnescapedDollar (src : List Char) (k : Nat) : Option Nat :=
  if h : k < src.length then
    if src.get ⟨k, h⟩ = dollarChar ∧ isEscaped src k = false then some k
    else firstUnescapedDollar src (k + 1)
  else none
termination_by src.length - k

theorem firstUnescapedDollar_mem (src : List Char) (k q : Nat)
    (h : firstUnescapedDollar src k = some q) :
    k ≤ q ∧ charAt? src q = some dollarChar ∧ isEscaped src q = false := by
  rw [firstUnescapedDollar] at h
  split at h
  · next hk =>
    split at h
    · next hcond =>
      cases h
      exact ⟨Nat.le_refl _, by
        rw [charAt?_eq_getElem src k hk]
        rw [List.get_eq_getElem] at hcond
        exact congrArg some hcond.1, hcond.2⟩
    · have := firstUnescapedDollar_mem src (k + 1) q h
      exact ⟨by omega, this.2⟩
  · cases h
termination_by src.length - k

theorem firstUnescapedDollar_step (src : List Char) (k : Nat)
    (h : ¬(charAt? src k = some dollarChar ∧ isEscaped src k = false)) :
    firstUnescapedDollar src k = firstUnescapedDollar src (k + 1) := by
  rw [firstUnescapedDollar]
  split
  · next hk =>
    rw [if_neg]
    rintro ⟨h1, h2⟩
    apply h
    refine ⟨?_, h2⟩
    rw [charAt?_eq_getElem src k hk]
    rw [List.get_eq_getElem] at h1
    exact congrArg some h1
  · next hk =>
    rw [firstUnescapedDollar, dif_neg (by omega)]

theorem firstUnescapedDollar_found (src : List Char) (k : Nat)
    (h1 : charAt? src k = some dollarChar) (h2 : isEscaped src k = false) :
    firstUnescapedDollar src k = some k := by
  have hk : k < src.length := by
    by_contra hge
    rw [charAt?_eq_none src k (Nat.le_of_not_lt hge)] at h1
    exact Option.noConfusion h1
  rw [firstUnescapedDollar, dif_pos hk, if_pos]
  refine ⟨?_, h2⟩
  rw [List.get_eq_getElem]
  rw [charAt?_eq_getElem src k hk] at h1
  exact Option.some_injective _ h1

theorem firstUnescapedDollar_congr (src : List Char) (m m' : Nat) (hle : m ≤ m')
    (h : ∀ j, m ≤ j → j < m' →
      ¬(charAt? src j = some dollarChar ∧ isEscaped src j = false)) :
    firstUnescapedDollar src m = firstUnescapedDollar src m' := by
  induction m', hle using Nat.le_induction with
  | base => rfl
  | succ n hn ih =>
    rw [ih (fun j h1 h2 => h j h1 (by omega))]
    exact firstUnescapedDollar_step src n (h n (by omega) (by omega))

theorem firstUnescapedDollar_none (src : List Char) (k : Nat)
    (h : ∀ j, k ≤ j → charAt? src j ≠ some dollarChar) :
    firstUnescapedDollar src k = none := by
  rw [firstUnescapedDollar]
  split
  · next hk =>
    rw [if_neg]
    · exact firstUnescapedDollar_none src (k + 1) (fun j hj => h j (by omega))
    · rintro ⟨h1, _⟩
      apply h k (Nat.le_refl _)
      rw [charAt?_eq_getElem src k hk]
      rw [List.get_eq_getElem] at h1
      exact congrArg some h1
  · rfl
termination_by src.length - k

/-- Specification-side reading of the closer search of skipInlineMath:
find the first unescaped dollar sign after the opener and accept or
reject on that candidate alone. -/
def specMathCloser (src : List Char) (max pos m : Nat) : Option SkipInlineResult :=
  match firstUnescapedDollar src m with
  | none => none
  | some q =>
    if q > max then none
    else if charAt? src (q - 1) = some ' ' ∨ charAt? src (q - 1) = some '\t' ∨
        (∃ c, (if q + 1 ≤ max then charAt? src (q + 1) else none) = some c ∧
          '0' ≤ c ∧ c ≤ '9') then none
    else some { end_ := q + 1, steps := q + 1 - (pos + 1) }

theorem mathCloserSearch_spec (src : List Char) (max pos m : Nat) :
    mathCloserSearch src max pos m = specMathCloser src max pos m := by
  rw [mathCloserSearch]
  split
  · next hidx =>
    rw [specMathCloser, firstUnescapedDollar_none src m (indexOfFrom_none src dollarChar m hidx)]
  · next d hidx =>
    have hb := indexOfFrom_bounds src dollarChar m d hidx
    have hc := indexOfFrom_char src dollarChar m d hidx
    have hmin := indexOfFrom_min src dollarChar m d hidx
    split
    · next hdmax =>
      rw [specMathCloser]
      match hq : firstUnescapedDollar src m with
      | none => rfl
      | some q =>
        have hm := firstUnescapedDollar_mem src m q hq
        have hqd : d ≤ q := by
          by_contra hlt
          exact hmin q hm.1 (Nat.lt_of_not_le hlt) hm.2.1
        dsimp only
        rw [if_pos (show q > max by omega)]
    · next hdmax =>
      split
      · next hescd =>
        rw [mathCloserSearch_spec src max pos (d + 1)]
        rw [specMathCloser, specMathCloser]
        have : firstUnescapedDollar src m = firstUnescapedDollar src (d + 1) := by
          apply firstUnescapedDollar_congr src m (d + 1) (by omega)
          intro j h1 h2
          rintro ⟨hj1, hj2⟩
          rcases Nat.lt_or_ge j d with hlt | hge
          · exact hmin j h1 hlt hj1
          · have : j = d := by omega
            subst this
            rw [hescd] at hj2
            exact Bool.noConfusion hj2
        rw [this]
      · next hescd =>
        have hfud : firstUnescapedDollar src m = some d := by
          rw [firstUnescapedDollar_congr src m d hb.1
            (fun j h1 h2 => fun hj => hmin j h1 h2 hj.1)]
          exact firstUnescapedDollar_found src d hc (Bool.eq_false_iff.mpr hescd)
        rw [specMathCloser, hfud]
        dsimp only
        rw [if_neg hdmax]
termination_by src.length - m
decreasing_by omega

/-- Counterexample to C6: the closer search stops at the first
unescaped dollar sign and does not search further.  Here the first
unescaped closing candidate at position 2 is followed by the digit 0,
so the scan returns no-match, although a closing unescaped dollar sign
at position 5 (not preceded by whitespace, not followed by a digit,
within lineEnd 10) exists, which the claim as stated requires to be
returned as the matched span. -/
theorem claim6_counterexample :
    skipInlineMath ['$', 'a', '$', '0', 'b', '$'] 0 10 = none ∧
    charAt? ['$', 'a', '$', '0', 'b', '$'] 5 = some dollarChar ∧
    isEscaped ['$', 'a', '$', '0', 'b', '$'] 5 = false ∧
    charAt? ['$', 'a', '$', '0', 'b', '$'] 4 = some 'b' ∧
    charAt? ['$', 'a', '$', '0', 'b', '$'] 6 = none ∧
    5 ≤ 10 := by
  refine ⟨?_, by decide, by decide, by decide, by decide, by omega⟩
  rw [skipInlineMath]
  norm_num [charAt?, dollarChar]
  rw [mathCloserSearch]
  have h1 : indexOfFrom ['$', 'a', '$', '0', 'b', '$'] dollarChar 1 = some 2 := by
    simp [indexOfFrom, dollarChar]
  rw [h1]
  norm_num [charAt?]
  decide

/-- C6 (amended): if the character at pos is an unescaped dollar sign
not followed by whitespace, skipInlineMath returns a 2-character skip
when the next character is also a dollar sign; otherwise it finds only
the first unescaped dollar sign after the opener and returns the span
ending there exactly when that sign lies within lineEnd, is not
preceded by whitespace and not followed by a digit; in every other
case, including when a later dollar sign would qualify, it returns
no-match. -/
theorem claim6_skipInlineMath_amended (src : List Char) (pos max : Nat)
    (hchar : charAt? src pos = some dollarChar)
    (hesc : ¬(pos > 0 ∧ notEscaped src pos = false))
    (hnows : ¬((if pos + 1 ≤ max then charAt? src (pos + 1) else none) = some ' ' ∨
        (if pos + 1 ≤ max then charAt? src (pos + 1) else none) = some '\t')) :
    ((if pos + 1 ≤ max then charAt? src (pos + 1) else none) = some dollarChar →
      skipInlineMath src pos max = some { end_ := pos + 2, steps := 2 }) ∧
    ((if pos + 1 ≤ max then charAt? src (pos + 1) else none) ≠ some dollarChar →
      skipInlineMath src pos max = specMathCloser src max pos (pos + 1)) := by
  constructor
  · intro hd
    rw [skipInlineMath, if_neg (fun hn => hn hchar), if_neg hesc]
    dsimp only
    rw [if_neg hnows, if_pos hd]
  · intro hd
    rw [skipInlineMath, if_neg (fun hn => hn hchar), if_neg hesc]
    dsimp only
    rw [if_neg hnows, if_neg hd]
    exact mathCloserSearch_spec src max pos (pos + 1)

/-- Witness for the amended C6 at a concrete input: the scan agrees
with the first-unescaped-dollar specification. -/
theorem claim6_skipInlineMath_amended_witness :
    skipInlineMath ['$', 'a', '$'] 0 3 = specMathCloser ['$', 'a', '$'] 3 0 1 :=
  (claim6_skipInlineMath_amended ['$', 'a', '$'] 0 3 (by decide) (by decide)
    (by decide)).2 (by decide)

/-! ## The table region scanner -/

/-- A snapshot of the iterator, as produced by stats(). -/
structure Stats where
  line : Nat
  pos : Nat
deriving DecidableEq, Repr

/-- The read-only host data consulted by the scanner: the source
buffer and the per-line boundary tables. -/
structure Ctx where
  src : List Char
  bMarks : Nat → Nat
  tShift : Nat → Nat
  eMarks : Nat → Nat

/-- Plugin options; the block-code toggle defaults to on (the source
tests it with a strict inequality against false), the others to off. -/
structure Opts where
  table_ignoreSplittersInBlockCode : Bool := true
  table_ignoreSplittersInBlockMath : Bool := false
  table_ignoreSplittersInInlineCode : Bool := false
  table_ignoreSplittersInInlineMath : Bool := false

/-- The whole mutable state of getTableRowPositions: the StateIterator
fields (pos, line, lineEnds) plus the scan flags and row trackers. -/
structure ScanSt where
  pos : Nat
  line : Nat
  lineEnds : Nat
  isInsideCode : Bool
  isInsideMath : Bool
  isInsideLiquidVariable : Bool
  tableLevel : Nat
  rowMap : Nat → Bool
  currentRow : List (Stats × Stats)
  colStart : Option Stats
  rowStart : Option Nat
  rows : List (Nat × Nat × List (Stats × Stats))
  endOfTable : Option Nat

/-- StateIterator.next for a single character: step the position and
wrap to the next line when the cached line end is passed. -/
def ScanSt.next1 (ctx : Ctx) (st : ScanSt) : ScanSt :=
  if st.pos + 1 > st.lineEnds then
    { st with pos := ctx.bMarks (st.line + 1) + ctx.tShift (st.line + 1),
              line := st.line + 1,
              lineEnds := ctx.eMarks (st.line + 1) }
  else { st with pos := st.pos + 1 }

/-- StateIterator.next(steps). -/
def ScanSt.nextN (ctx : Ctx) (st : ScanSt) : Nat → ScanSt
  | 0 => st
  | n + 1 => (st.next1 ctx).nextN ctx n

/-- JavaScript truthiness of the rowStart variable: null and 0 are
both falsy. -/
def rowStartTruthy : Option Nat → Bool
  | none => false
  | some 0 => false
  | some (_ + 1) => true

/-- The addRow closure: flush the open cell into the current row, push
the row when it is non-empty and rowStart is truthy, then reset the
row trackers. -/
def addRow (st : ScanSt) : ScanSt :=
  let st1 := match st.colStart with
    | some c => { st with currentRow := st.currentRow ++ [(c, (⟨st.line, st.pos⟩ : Stats))] }
    | none => st
  let st2 := if st1.currentRow ≠ [] ∧ rowStartTruthy st1.rowStart = true then
      { st1 with rows := st1.rows ++ [(st1.rowStart.getD 0, st1.line, st1.currentRow)] }
    else st1
  { st2 with currentRow := [], colStart := none, rowStart := none }

/-- Fenced-code stage of the loop body: toggle isInsideCode and skip
the marker; no continue follows, so later stages see the new state. -/
def stageCode (ctx : Ctx) (opts : Opts) (st : ScanSt) : ScanSt :=
  if opts.table_ignoreSplittersInBlockCode ≠ false ∧ st.isInsideMath = false ∧
      isCodeBlockOrder ctx.src st.pos = true then
    ({ st with isInsideCode := !st.isInsideCode }).nextN ctx codeBlockOrder.length
  else st

/-- Fenced-math stage, evaluated on the state left by the code stage. -/
def stageMath (ctx : Ctx) (opts : Opts) (st : ScanSt) : ScanSt :=
  if opts.table_ignoreSplittersInBlockMath = true ∧ st.isInsideCode = false ∧
      isMathBlockOrder ctx.src st.pos = true then
    ({ st with isInsideMath := !st.isInsideMath }).nextN ctx mathBlockOrder.length
  else st

/-- Liquid-variable open stage. -/
def stageLiquidStart (ctx : Ctx) (st : ScanSt) : ScanSt :=
  if st.isInsideLiquidVariable = false ∧ isLiquidVariableStart ctx.src st.pos = true then
    ({ st with isInsideLiquidVariable := true }).nextN ctx liquidVariableStartOrder.length
  else st

/-- Liquid-variable close stage, evaluated on the state left by the
open stage. -/
def stageLiquidEnd (ctx : Ctx) (st : ScanSt) : ScanSt :=
  if st.isInsideLiquidVariable = true ∧ isLiquidVariableEnd ctx.src st.pos = true then
    ({ st with isInsideLiquidVariable := false }).nextN ctx liquidVariableEndOrder.length
  else st

/-- The outcome of one iteration of the scanning loop: either the loop
breaks with a final state, or it continues with the next state. -/
inductive StepOut where
  | brk (st : ScanSt)
  | cont (st : ScanSt)

def StepOut.state : StepOut → ScanSt
  | .brk st => st
  | .cont st => st

/-- One iteration of the while loop of getTableRowPositions, assuming
the loop condition already held. -/
def step (ctx : Ctx) (opts : Opts) (st : ScanSt) : StepOut :=
  match charAt? ctx.src st.pos with
  | none => .brk st
  | some _ =>
    let s1 := stageMath ctx opts (stageCode ctx opts st)
    if s1.isInsideCode = true ∨ s1.isInsideMath = true then .cont (s1.nextN ctx 1)
    else
      let s2 := stageLiquidEnd ctx (stageLiquidStart ctx s1)
      if s2.isInsideLiquidVariable = true then .cont (s2.nextN ctx 1)
      else
        match (if opts.table_ignoreSplittersInInlineCode = true then
            skipInlineCode ctx.src s2.pos s2.lineEnds else none) with
        | some r => .cont (s2.nextN ctx r.steps)
        | none =>
        match (if opts.table_ignoreSplittersInInlineMath = true then
            skipInlineMath ctx.src s2.pos s2.lineEnds else none) with
        | some r => .cont (s2.nextN ctx r.steps)
        | none =>
        if isOpenTableOrder ctx.src s2.pos = true then
          .cont (({ s2 with tableLevel := s2.tableLevel + 1 }).nextN ctx openTableOrder.length)
        else if isCloseTableOrder ctx.src s2.pos = true then
          if s2.tableLevel = 0 then
            let s3 := (addRow s2).nextN ctx closeTableOrder.length
            .brk { s3 with endOfTable := some (s3.line + 2) }
          else
            .cont (({ s2 with tableLevel := s2.tableLevel - 1 }).nextN ctx closeTableOrder.length)
        else if 0 < s2.tableLevel then .cont (s2.nextN ctx 1)
        else if isRowOrder ctx.src s2.pos = true then
          let insideRow := s2.rowMap s2.tableLevel
          let s3 := if insideRow = true then (addRow s2).nextN ctx rowStartOrder.length
            else
              let s4 := s2.nextN ctx rowStartOrder.length
              { s4 with rowStart := some s4.line, colStart := some (⟨s4.line, s4.pos⟩ : Stats) }
          .cont { s3 with rowMap := Function.update s3.rowMap s3.tableLevel (!insideRow) }
        else if isCellOrder ctx.src s2.pos = true then
          let s3 := match s2.colStart with
            | some c => { s2 with currentRow := s2.currentRow ++ [(c, (⟨s2.line, s2.pos⟩ : Stats))] }
            | none => s2
          let s4 := s3.nextN ctx cellStartOrder.length
          .cont { s4 with colStart := some (⟨s4.line, s4.pos⟩ : Stats) }
        else .cont (s2.nextN ctx 1)

/-- The scanning loop, fuelled: the Bool records whether the loop
finished by its own condition or a break (true) or ran out of fuel
(false). -/
def scanLoop (ctx : Ctx) (opts : Opts) (endPosition : Nat) : Nat → ScanSt → ScanSt × Bool
  | 0, st => (st, false)
  | fuel + 1, st =>
    if st.pos ≤ endPosition then
      match step ctx opts st with
      | .brk s => (s, true)
      | .cont s => scanLoop ctx opts endPosition fuel s
    else (st, true)

/-- The initial scanner state: the iterator starts just after the
opening fence, everything else is reset. -/
def initScanSt (ctx : Ctx) (startPosition startLine : Nat) : ScanSt :=
  { pos := startPosition + openTableOrder.length
    line := startLine
    lineEnds := ctx.eMarks startLine
    isInsideCode := false
    isInsideMath := false
    isInsideLiquidVariable := false
    tableLevel := 0
    rowMap := fun _ => false
    currentRow := []
    colStart := none
    rowStart := none
    rows := []
    endOfTable := none }

structure RowPositions where
  rows : List (Nat × Nat × List (Stats × Stats))
  endOfTable : Option Nat
  pos : Nat

/-- getTableRowPositions: run the scan from just after the opening
fence.  The fuel bound endPosition + 2 covers every terminating run
because the position grows strictly at each continuing iteration for
well-formed line marks. -/
def getTableRowPositions (ctx : Ctx) (opts : Opts)
    (startPosition endPosition startLine : Nat) : RowPositions :=
  let st0 := initScanSt ctx startPosition startLine
  let out := (scanLoop ctx opts endPosition (endPosition + 2) st0).1
  { rows := out.rows, endOfTable := out.endOfTable, pos := out.pos }

/-! Iterator movement leaves every non-iterator field unchanged. -/

@[simp] theorem ScanSt.next1_rows (ctx : Ctx) (st : ScanSt) :
    (st.next1 ctx).rows = st.rows := by
  rw [ScanSt.next1]; split <;> rfl

@[simp] theorem ScanSt.nextN_rows (ctx : Ctx) (st : ScanSt) (n : Nat) :
    (st.nextN ctx n).rows = st.rows := by
  induction n generalizing st with
  | zero => rfl
  | succ n ih => rw [ScanSt.nextN, ih, ScanSt.next1_rows]

@[simp] theorem ScanSt.next1_currentRow (ctx : Ctx) (st : ScanSt) :
    (st.next1 ctx).currentRow = st.currentRow := by
  rw [ScanSt.next1]; split <;> rfl

@[simp] theorem ScanSt.nextN_currentRow (ctx : Ctx) (st : ScanSt) (n : Nat) :
    (st.nextN ctx n).currentRow = st.currentRow := by
  induction n generalizing st with
  | zero => rfl
  | succ n ih => rw [ScanSt.nextN, ih, ScanSt.next1_currentRow]

@[simp] theorem ScanSt.next1_colStart (ctx : Ctx) (st : ScanSt) :
    (st.next1 ctx).colStart = st.colStart := by
  rw [ScanSt.next1]; split <;> rfl

@[simp] theorem ScanSt.nextN_colStart (ctx : Ctx) (st : ScanSt) (n : Nat) :
    (st.nextN ctx n).colStart = st.colStart := by
  induction n generalizing st with
  | zero => rfl
  | succ n ih => rw [ScanSt.nextN, ih, ScanSt.next1_colStart]

@[simp] theorem ScanSt.next1_rowStart (ctx : Ctx) (st : ScanSt) :
    (st.next1 ctx).rowStart = st.rowStart := by
  rw [ScanSt.next1]; split <;> rfl

@[simp] theorem ScanSt.nextN_rowStart (ctx : Ctx) (st : ScanSt) (n : Nat) :
    (st.nextN ctx n).rowStart = st.rowStart := by
  induction n generalizing st with
  | zero => rfl
  | succ n ih => rw [ScanSt.nextN, ih, ScanSt.next1_rowStart]

@[simp] theorem ScanSt.next1_rowMap (ctx : Ctx) (st : ScanSt) :
    (st.next1 ctx).rowMap = st.rowMap := by
  rw [ScanSt.next1]; split <;> rfl

@[simp] theorem ScanSt.nextN_rowMap (ctx : Ctx) (st : ScanSt) (n : Nat) :
    (st.nextN ctx n).rowMap = st.rowMap := by
  induction n generalizing st with
  | zero => rfl
  | succ n ih => rw [ScanSt.nextN, ih, ScanSt.next1_rowMap]

@[simp] theorem ScanSt.next1_tableLevel (ctx : Ctx) (st : ScanSt) :
    (st.next1 ctx).tableLevel = st.tableLevel := by
  rw [ScanSt.next1]; split <;> rfl

@[simp] theorem ScanSt.nextN_tableLevel (ctx : Ctx) (st : ScanSt) (n : Nat) :
    (st.nextN ctx n).tableLevel = st.tableLevel := by
  induction n generalizing st with
  | zero => rfl
  | succ n ih => rw [ScanSt.nextN, ih, ScanSt.next1_tableLevel]

@[simp] theorem ScanSt.next1_endOfTable (ctx : Ctx) (st : ScanSt) :
    (st.next1 ctx).endOfTable = st.endOfTable := by
  rw [ScanSt.next1]; split <;> rfl

@[simp] theorem ScanSt.nextN_endOfTable (ctx : Ctx) (st : ScanSt) (n : Nat) :
    (st.nextN ctx n).endOfTable = st.endOfTable := by
  induction n generalizing st with
  | zero => rfl
  | succ n ih => rw [ScanSt.nextN, ih, ScanSt.next1_endOfTable]

@[simp] theorem ScanSt.next1_isInsideCode (ctx : Ctx) (st : ScanSt) :
    (st.next1 ctx).isInsideCode = st.isInsideCode := by
  rw [ScanSt.next1]; split <;> rfl

@[simp] theorem ScanSt.nextN_isInsideCode (ctx : Ctx) (st : ScanSt) (n : Nat) :
    (st.nextN ctx n).isInsideCode = st.isInsideCode := by
  induction n generalizing st with
  | zero => rfl
  | succ n ih => rw [ScanSt.nextN, ih, ScanSt.next1_isInsideCode]

@[simp] theorem ScanSt.next1_isInsideMath (ctx : Ctx) (st : ScanSt) :
    (st.next1 ctx).isInsideMath = st.isInsideMath := by
  rw [ScanSt.next1]; split <;> rfl

@[simp] theorem ScanSt.nextN_isInsideMath (ctx : Ctx) (st : ScanSt) (n : Nat) :
    (st.nextN ctx n).isInsideMath = st.isInsideMath := by
  induction n generalizing st with
  | zero => rfl
  | succ n ih => rw [ScanSt.nextN, ih, ScanSt.next1_isInsideMath]

@[simp] theorem ScanSt.next1_isInsideLiquidVariable (ctx : Ctx) (st : ScanSt) :
    (st.next1 ctx).isInsideLiquidVariable = st.isInsideLiquidVariable := by
  rw [ScanSt.next1]; split <;> rfl

@[simp] theorem ScanSt.nextN_isInsideLiquidVariable (ctx : Ctx) (st : ScanSt) (n : Nat) :
    (st.nextN ctx n).isInsideLiquidVariable = st.isInsideLiquidVariable := by
  induction n generalizing st with
  | zero => rfl
  | succ n ih => rw [ScanSt.nextN, ih, ScanSt.next1_isInsideLiquidVariable]


/-! The fence and liquid stages leave the row-tracking state unchanged. -/

@[simp] theorem stageCode_rows (ctx : Ctx) (opts : Opts) (st : ScanSt) :
    (stageCode ctx opts st).rows = st.rows := by
  rw [stageCode]; split <;> simp

@[simp] theorem stageCode_currentRow (ctx : Ctx) (opts : Opts) (st : ScanSt) :
    (stageCode ctx opts st).currentRow = st.currentRow := by
  rw [stageCode]; split <;> simp

@[simp] theorem stageCode_colStart (ctx : Ctx) (opts : Opts) (st : ScanSt) :
    (stageCode ctx opts st).colStart = st.colStart := by
  rw [stageCode]; split <;> simp

@[simp] theorem stageCode_rowStart (ctx : Ctx) (opts : Opts) (st : ScanSt) :
    (stageCode ctx opts st).rowStart = st.rowStart := by
  rw [stageCode]; split <;> simp

@[simp] theorem stageCode_rowMap (ctx : Ctx) (opts : Opts) (st : ScanSt) :
    (stageCode ctx opts st).rowMap = st.rowMap := by
  rw [stageCode]; split <;> simp

@[simp] theorem stageCode_tableLevel (ctx : Ctx) (opts : Opts) (st : ScanSt) :
    (stageCode ctx opts st).tableLevel = st.tableLevel := by
  rw [stageCode]; split <;> simp

@[simp] theorem stageCode_endOfTable (ctx : Ctx) (opts : Opts) (st : ScanSt) :
    (stageCode ctx opts st).endOfTable = st.endOfTable := by
  rw [stageCode]; split <;> simp

@[simp] theorem stageCode_isInsideMath (ctx : Ctx) (opts : Opts) (st : ScanSt) :
    (stageCode ctx opts st).isInsideMath = st.isInsideMath := by
  rw [stageCode]; split <;> simp

@[simp] theorem stageCode_isInsideLiquidVariable (ctx : Ctx) (opts : Opts) (st : ScanSt) :
    (stageCode ctx opts st).isInsideLiquidVariable = st.isInsideLiquidVariable := by
  rw [stageCode]; split <;> simp

@[simp] theorem stageMath_rows (ctx : Ctx) (opts : Opts) (st : ScanSt) :
    (stageMath ctx opts st).rows = st.rows := by
  rw [stageMath]; split <;> simp

@[simp] theorem stageMath_currentRow (ctx : Ctx) (opts : Opts) (st : ScanSt) :
    (stageMath ctx opts st).currentRow = st.currentRow := by
  rw [stageMath]; split <;> simp

@[simp] theorem stageMath_colStart (ctx : Ctx) (opts : Opts) (st : ScanSt) :
    (stageMath ctx opts st).colStart = st.colStart := by
  rw [stageMath]; split <;> simp

@[simp] theorem stageMath_rowStart (ctx : Ctx) (opts : Opts) (st : ScanSt) :
    (stageMath ctx opts st).rowStart = st.rowStart := by
  rw [stageMath]; split <;> simp

@[simp] theorem stageMath_rowMap (ctx : Ctx) (opts : Opts) (st : ScanSt) :
    (stageMath ctx opts st).rowMap = st.rowMap := by
  rw [stageMath]; split <;> simp

@[simp] theorem stageMath_tableLevel (ctx : Ctx) (opts : Opts) (st : ScanSt) :
    (stageMath ctx opts st).tableLevel = st.tableLevel := by
  rw [stageMath]; split <;> simp

@[simp] theorem stageMath_endOfTable (ctx : Ctx) (opts : Opts) (st : ScanSt) :
    (stageMath ctx opts st).endOfTable = st.endOfTable := by
  rw [stageMath]; split <;> simp

@[simp] theorem stageMath_isInsideCode (ctx : Ctx) (opts : Opts) (st : ScanSt) :
    (stageMath ctx opts st).isInsideCode = st.isInsideCode := by
  rw [stageMath]; split <;> simp

@[simp] theorem stageMath_isInsideLiquidVariable (ctx : Ctx) (opts : Opts) (st : ScanSt) :
    (stageMath ctx opts st).isInsideLiquidVariable = st.isInsideLiquidVariable := by
  rw [stageMath]; split <;> simp

@[simp] theorem stageLiquidStart_rows (ctx : Ctx) (st : ScanSt) :
    (stageLiquidStart ctx st).rows = st.rows := by
  rw [stageLiquidStart]; split <;> simp

@[simp] theorem stageLiquidStart_currentRow (ctx : Ctx) (st : ScanSt) :
    (stageLiquidStart ctx st).currentRow = st.currentRow := by
  rw [stageLiquidStart]; split <;> simp

@[simp] theorem stageLiquidStart_colStart (ctx : Ctx) (st : ScanSt) :
    (stageLiquidStart ctx st).colStart = st.colStart := by
  rw [stageLiquidStart]; split <;> simp

@[simp] theorem stageLiquidStart_rowStart (ctx : Ctx) (st : ScanSt) :
    (stageLiquidStart ctx st).rowStart = st.rowStart := by
  rw [stageLiquidStart]; split <;> simp

@[simp] theorem stageLiquidStart_rowMap (ctx : Ctx) (st : ScanSt) :
    (stageLiquidStart ctx st).rowMap = st.rowMap := by
  rw [stageLiquidStart]; split <;> simp

@[simp] theorem stageLiquidStart_tableLevel (ctx : Ctx) (st : ScanSt) :
    (stageLiquidStart ctx st).tableLevel = st.tableLevel := by
  rw [stageLiquidStart]; split <;> simp

@[simp] theorem stageLiquidStart_endOfTable (ctx : Ctx) (st : ScanSt) :
    (stageLiquidStart ctx st).endOfTable = st.endOfTable := by
  rw [stageLiquidStart]; split <;> simp

@[simp] theorem stageLiquidStart_isInsideCode (ctx : Ctx) (st : ScanSt) :
    (stageLiquidStart ctx st).isInsideCode = st.isInsideCode := by
  rw [stageLiquidStart]; split <;> simp

@[simp] theorem stageLiquidStart_isInsideMath (ctx : Ctx) (st : ScanSt) :
    (stageLiquidStart ctx st).isInsideMath = st.isInsideMath := by
  rw [stageLiquidStart]; split <;> simp

@[simp] theorem stageLiquidEnd_rows (ctx : Ctx) (st : ScanSt) :
    (stageLiquidEnd ctx st).rows = st.rows := by
  rw [stageLiquidEnd]; split <;> simp

@[simp] theorem stageLiquidEnd_currentRow (ctx : Ctx) (st : ScanSt) :
    (stageLiquidEnd ctx st).currentRow = st.currentRow := by
  rw [stageLiquidEnd]; split <;> simp

@[simp] theorem stageLiquidEnd_colStart (ctx : Ctx) (st : ScanSt) :
    (stageLiquidEnd ctx st).colStart = st.colStart := by
  rw [stageLiquidEnd]; split <;> simp

@[simp] theorem stageLiquidEnd_rowStart (ctx : Ctx) (st : ScanSt) :
    (stageLiquidEnd ctx st).rowStart = st.rowStart := by
  rw [stageLiquidEnd]; split <;> simp

@[simp] theorem stageLiquidEnd_rowMap (ctx : Ctx) (st : ScanSt) :
    (stageLiquidEnd ctx st).rowMap = st.rowMap := by
  rw [stageLiquidEnd]; split <;> simp

@[simp] theorem stageLiquidEnd_tableLevel (ctx : Ctx) (st : ScanSt) :
    (stageLiquidEnd ctx st).tableLevel = st.tableLevel := by
  rw [stageLiquidEnd]; split <;> simp

@[simp] theorem stageLiquidEnd_endOfTable (ctx : Ctx) (st : ScanSt) :
    (stageLiquidEnd ctx st).endOfTable = st.endOfTable := by
  rw [stageLiquidEnd]; split <;> simp

@[simp] theorem stageLiquidEnd_isInsideCode (ctx : Ctx) (st : ScanSt) :
    (stageLiquidEnd ctx st).isInsideCode = st.isInsideCode := by
  rw [stageLiquidEnd]; split <;> simp

@[simp] theorem stageLiquidEnd_isInsideMath (ctx : Ctx) (st : ScanSt) :
    (stageLiquidEnd ctx st).isInsideMath = st.isInsideMath := by
  rw [stageLiquidEnd]; split <;> simp

/-! ## Demonstration inputs for the scanner -/

/-- The buffer holding the two lines of a complete row on buffer line 0
followed by its close fence on line 1. -/
def demoSrcA : List Char := ['#', '|', ' ', '|', '|', ' ', 'a', ' ', '|', '|', '\n', '|', '#']

def demoBMarksA : Nat → Nat
  | 0 => 0
  | 1 => 11
  | n + 2 => 14 + n

def demoEMarksA : Nat → Nat
  | 0 => 10
  | 1 => 13
  | n + 2 => 14 + n

def demoCtxA : Ctx :=
  { src := demoSrcA, bMarks := demoBMarksA, tShift := fun _ => 0, eMarks := demoEMarksA }

/-- The same table content shifted so the row lies on buffer line 1. -/
def demoSrcB : List Char := ['#', '|', '\n', '|', '|', ' ', 'a', ' ', '|', '|', '\n', '|', '#']

def demoBMarksB : Nat → Nat
  | 0 => 0
  | 1 => 3
  | 2 => 11
  | n + 3 => 14 + n

def demoEMarksB : Nat → Nat
  | 0 => 2
  | 1 => 10
  | 2 => 13
  | n + 3 => 14 + n

def demoCtxB : Ctx :=
  { src := demoSrcB, bMarks := demoBMarksB, tShift := fun _ => 0, eMarks := demoEMarksB }

/-- C10: addRow records a completed row only when rowStart is truthy
(non-null and non-zero) and a cell is present; consequently, on an
input whose row markers lie on buffer line 0 (a row opened on the same
line as the opening fence at the start of the document) the completed
row is silently dropped from the returned rows, while the same content
shifted down one line keeps its row. -/
theorem claim10_row_dropped_on_line_zero :
    (∀ st : ScanSt, (addRow st).rows ≠ st.rows →
      rowStartTruthy st.rowStart = true ∧ (st.currentRow ≠ [] ∨ st.colStart ≠ none)) ∧
    (getTableRowPositions demoCtxA {} 0 13 0).rows = [] ∧
    (getTableRowPositions demoCtxA {} 0 13 0).endOfTable = some 3 ∧
    (getTableRowPositions demoCtxB {} 0 13 0).rows =
      [(1, 1, [(⟨1, 5⟩, ⟨1, 8⟩)])] := by
  refine ⟨?_, ?_, ?_, ?_⟩
  · intro st hne
    rw [addRow] at hne
    cases hcs : st.colStart with
    | none =>
      rw [hcs] at hne
      dsimp only at hne
      split at hne
      · next hcond => exact ⟨hcond.2, Or.inl hcond.1⟩
      · exact absurd rfl hne
    | some c =>
      rw [hcs] at hne
      dsimp only at hne
      split at hne
      · next hcond => exact ⟨hcond.2, Or.inr (by simp [hcs])⟩
      · exact absurd rfl hne
  all_goals
    set_option maxHeartbeats 1600000 in
    simp [getTableRowPositions, scanLoop, step, initScanSt, stageCode, stageMath,
      stageLiquidStart, stageLiquidEnd, addRow, ScanSt.nextN, ScanSt.next1, charAt?,
      demoCtxA, demoSrcA, demoBMarksA, demoEMarksA,
      demoCtxB, demoSrcB, demoBMarksB, demoEMarksB,
      isCodeBlockOrder, isMathBlockOrder,
      isLiquidVariableStart, isLiquidVariableEnd, isOpenTableOrder, isCloseTableOrder,
      isRowOrder, isCellOrder, checkCharsOrder, escapeWalk, isEscaped, notEscaped,
      rowStartTruthy, Function.update, codeBlockOrder, mathBlockOrder,
      liquidVariableStartOrder, liquidVariableEndOrder, openTableOrder, closeTableOrder,
      rowStartOrder, cellStartOrder, pipeChar, hashChar, apostropheChar, dollarChar,
      backSlashChar, curlyBraceOpen, curlyBraceClose]

/-- Witness for C10: a state whose row was opened on a non-zero line
does get its row recorded, satisfying the characterization. -/
theorem claim10_row_dropped_on_line_zero_witness :
    rowStartTruthy (some 1) = true ∧
      (([((⟨1, 3⟩ : Stats), (⟨1, 5⟩ : Stats))] : List (Stats × Stats)) ≠ [] ∨
        (none : Option Stats) ≠ none) :=
  claim10_row_dropped_on_line_zero.1
    { pos := 6, line := 1, lineEnds := 8, isInsideCode := false, isInsideMath := false,
      isInsideLiquidVariable := false, tableLevel := 0, rowMap := fun _ => false,
      currentRow := [(⟨1, 3⟩, ⟨1, 5⟩)], colStart := none, rowStart := some 1,
      rows := [], endOfTable := none }
    (by simp [addRow, rowStartTruthy])

/-- C3: while the nesting level is positive, one iteration of the
scanner never changes the row-tracking state: no Row or CellSpan entry
is produced, the open-cell and open-row trackers and the row toggle
map are untouched; the iteration only adjusts fence bookkeeping and
advances.  Hence markers strictly inside a nested table region never
contribute rows or cells to the outer scan. -/
theorem claim3_nested_tables_opaque (ctx : Ctx) (opts : Opts) (st : ScanSt)
    (h : 0 < st.tableLevel) :
    ((step ctx opts st).state).rows = st.rows ∧
    ((step ctx opts st).state).currentRow = st.currentRow ∧
    ((step ctx opts st).state).colStart = st.colStart ∧
    ((step ctx opts st).state).rowStart = st.rowStart ∧
    ((step ctx opts st).state).rowMap = st.rowMap := by
  rw [step]
  cases hc : charAt? ctx.src st.pos with
  | none => exact ⟨rfl, rfl, rfl, rfl, rfl⟩
  | some c =>
    dsimp only
    split
    · simp [StepOut.state]
    · split
      · simp [StepOut.state]
      · split
        · simp [StepOut.state]
        · split
          · simp [StepOut.state]
          · split
            · simp [StepOut.state]
            · split
              · split
                · next hzero =>
                  exfalso
                  simp only [stageLiquidEnd_tableLevel, stageLiquidStart_tableLevel,
                    stageMath_tableLevel, stageCode_tableLevel] at hzero
                  omega
                · simp [StepOut.state]
              · split
                · simp [StepOut.state]
                · next hnl =>
                  exfalso
                  simp only [stageLiquidEnd_tableLevel, stageLiquidStart_tableLevel,
                    stageMath_tableLevel, stageCode_tableLevel] at hnl
                  omega

/-- A concrete scanner state sitting inside a nested table (level 1),
positioned on a row marker of the inner table. -/
def nestedDemoSt : ScanSt :=
  { pos := 0, line := 0, lineEnds := 2, isInsideCode := false, isInsideMath := false,
    isInsideLiquidVariable := false, tableLevel := 1, rowMap := fun _ => false,
    currentRow := [], colStart := none, rowStart := none, rows := [], endOfTable := none }

def nestedDemoCtx : Ctx :=
  { src := ['|', '|', 'x'], bMarks := fun _ => 3, tShift := fun _ => 0, eMarks := fun _ => 3 }

/-- Witness for C3 at a concrete nested state on a row marker. -/
theorem claim3_nested_tables_opaque_witness :
    ((step nestedDemoCtx {} nestedDemoSt).state).rows = nestedDemoSt.rows ∧
    ((step nestedDemoCtx {} nestedDemoSt).state).currentRow = nestedDemoSt.currentRow ∧
    ((step nestedDemoCtx {} nestedDemoSt).state).colStart = nestedDemoSt.colStart ∧
    ((step nestedDemoCtx {} nestedDemoSt).state).rowStart = nestedDemoSt.rowStart ∧
    ((step nestedDemoCtx {} nestedDemoSt).state).rowMap = nestedDemoSt.rowMap :=
  claim3_nested_tables_opaque nestedDemoCtx {} nestedDemoSt (by decide)

/-! ## Well-formed line marks and the scanner invariant -/

/-- Well-formedness of the host line-boundary tables: a following line
starts after the previous line ends, the content start of a line is
not past its end, and the character under each line-end offset is a
newline or past the buffer. -/
structure WfMarks (ctx : Ctx) : Prop where
  be : ∀ l, ctx.eMarks l + 1 ≤ ctx.bMarks (l + 1) + ctx.tShift (l + 1)
  inb : ∀ l, ctx.bMarks l + ctx.tShift l ≤ ctx.eMarks l
  nl : ∀ l, charAt? ctx.src (ctx.eMarks l) = some '\n' ∨ charAt? ctx.src (ctx.eMarks l) = none

/-- The StateIterator invariant: the position does not pass the cached
line end, and the cache agrees with the line table. -/
def ScanInv (ctx : Ctx) (st : ScanSt) : Prop :=
  st.pos ≤ st.lineEnds ∧ st.lineEnds = ctx.eMarks st.line

theorem next1_inv (ctx : Ctx) (wf : WfMarks ctx) (st : ScanSt) (h : ScanInv ctx st) :
    ScanInv ctx (st.next1 ctx) := by
  rw [ScanSt.next1]
  split
  · exact ⟨wf.inb (st.line + 1), rfl⟩
  · next hle => exact ⟨Nat.le_of_not_lt hle, h.2⟩

theorem next1_pos (ctx : Ctx) (wf : WfMarks ctx) (st : ScanSt) (h : ScanInv ctx st) :
    st.pos + 1 ≤ (st.next1 ctx).pos := by
  rw [ScanSt.next1]
  split
  · next hgt =>
    have h1 := wf.be st.line
    have h2 := h.1
    have h3 := h.2
    dsimp only
    omega
  · exact Nat.le_refl _

theorem nextN_inv (ctx : Ctx) (wf : WfMarks ctx) (st : ScanSt) (n : Nat)
    (h : ScanInv ctx st) : ScanInv ctx (st.nextN ctx n) := by
  induction n generalizing st with
  | zero => exact h
  | succ n ih => exact ih _ (next1_inv ctx wf st h)

theorem nextN_pos (ctx : Ctx) (wf : WfMarks ctx) (st : ScanSt) (n : Nat)
    (h : ScanInv ctx st) : st.pos + n ≤ (st.nextN ctx n).pos := by
  induction n generalizing st with
  | zero => exact Nat.le_refl _
  | succ n ih =>
    have h1 := next1_pos ctx wf st h
    have h2 := ih (st.next1 ctx) (next1_inv ctx wf st h)
    rw [ScanSt.nextN]
    omega

/-! addRow leaves the iterator, flags and fence bookkeeping unchanged. -/

@[simp] theorem addRow_pos (st : ScanSt) : (addRow st).pos = st.pos := by
  rw [addRow]
  cases st.colStart <;> dsimp only <;> split <;> rfl

@[simp] theorem addRow_line (st : ScanSt) : (addRow st).line = st.line := by
  rw [addRow]
  cases st.colStart <;> dsimp only <;> split <;> rfl

@[simp] theorem addRow_lineEnds (st : ScanSt) : (addRow st).lineEnds = st.lineEnds := by
  rw [addRow]
  cases st.colStart <;> dsimp only <;> split <;> rfl

@[simp] theorem addRow_tableLevel (st : ScanSt) : (addRow st).tableLevel = st.tableLevel := by
  rw [addRow]
  cases st.colStart <;> dsimp only <;> split <;> rfl

@[simp] theorem addRow_endOfTable (st : ScanSt) : (addRow st).endOfTable = st.endOfTable := by
  rw [addRow]
  cases st.colStart <;> dsimp only <;> split <;> rfl

@[simp] theorem addRow_rowMap (st : ScanSt) : (addRow st).rowMap = st.rowMap := by
  rw [addRow]
  cases st.colStart <;> dsimp only <;> split <;> rfl

@[simp] theorem addRow_isInsideCode (st : ScanSt) : (addRow st).isInsideCode = st.isInsideCode := by
  rw [addRow]
  cases st.colStart <;> dsimp only <;> split <;> rfl

@[simp] theorem addRow_isInsideMath (st : ScanSt) : (addRow st).isInsideMath = st.isInsideMath := by
  rw [addRow]
  cases st.colStart <;> dsimp only <;> split <;> rfl

@[simp] theorem addRow_isInsideLiquidVariable (st : ScanSt) : (addRow st).isInsideLiquidVariable = st.isInsideLiquidVariable := by
  rw [addRow]
  cases st.colStart <;> dsimp only <;> split <;> rfl

theorem addRow_inv (ctx : Ctx) (st : ScanSt) (h : ScanInv ctx st) : ScanInv ctx (addRow st) := by
  constructor
  · rw [addRow_pos, addRow_lineEnds]; exact h.1
  · rw [addRow_lineEnds, addRow_line]; exact h.2

theorem stageCode_inv (ctx : Ctx) (opts : Opts) (wf : WfMarks ctx) (st : ScanSt)
    (h : ScanInv ctx st) : ScanInv ctx (stageCode ctx opts st) := by
  rw [stageCode]
  split
  · exact nextN_inv ctx wf _ _ h
  · exact h

theorem stageCode_pos (ctx : Ctx) (opts : Opts) (wf : WfMarks ctx) (st : ScanSt)
    (h : ScanInv ctx st) : st.pos ≤ (stageCode ctx opts st).pos := by
  rw [stageCode]
  split
  · have := nextN_pos ctx wf ({ st with isInsideCode := !st.isInsideCode }) codeBlockOrder.length h
    dsimp only at this
    omega
  · exact Nat.le_refl _

theorem stageMath_inv (ctx : Ctx) (opts : Opts) (wf : WfMarks ctx) (st : ScanSt)
    (h : ScanInv ctx st) : ScanInv ctx (stageMath ctx opts st) := by
  rw [stageMath]
  split
  · exact nextN_inv ctx wf _ _ h
  · exact h

theorem stageMath_pos (ctx : Ctx) (opts : Opts) (wf : WfMarks ctx) (st : ScanSt)
    (h : ScanInv ctx st) : st.pos ≤ (stageMath ctx opts st).pos := by
  rw [stageMath]
  split
  · have := nextN_pos ctx wf ({ st with isInsideMath := !st.isInsideMath }) mathBlockOrder.length h
    dsimp only at this
    omega
  · exact Nat.le_refl _

theorem stageLiquidStart_inv (ctx : Ctx) (wf : WfMarks ctx) (st : ScanSt)
    (h : ScanInv ctx st) : ScanInv ctx (stageLiquidStart ctx st) := by
  rw [stageLiquidStart]
  split
  · exact nextN_inv ctx wf _ _ h
  · exact h

theorem stageLiquidStart_pos (ctx : Ctx) (wf : WfMarks ctx) (st : ScanSt)
    (h : ScanInv ctx st) : st.pos ≤ (stageLiquidStart ctx st).pos := by
  rw [stageLiquidStart]
  split
  · have := nextN_pos ctx wf ({ st with isInsideLiquidVariable := true })
      liquidVariableStartOrder.length h
    dsimp only at this
    omega
  · exact Nat.le_refl _

theorem stageLiquidEnd_inv (ctx : Ctx) (wf : WfMarks ctx) (st : ScanSt)
    (h : ScanInv ctx st) : ScanInv ctx (stageLiquidEnd ctx st) := by
  rw [stageLiquidEnd]
  split
  · exact nextN_inv ctx wf _ _ h
  · exact h

theorem stageLiquidEnd_pos (ctx : Ctx) (wf : WfMarks ctx) (st : ScanSt)
    (h : ScanInv ctx st) : st.pos ≤ (stageLiquidEnd ctx st).pos := by
  rw [stageLiquidEnd]
  split
  · have := nextN_pos ctx wf ({ st with isInsideLiquidVariable := false })
      liquidVariableEndOrder.length h
    dsimp only at this
    omega
  · exact Nat.le_refl _

/-- The state after the four fall-through stages of one loop
iteration: the later guards of the iteration are evaluated on it. -/
def midState (ctx : Ctx) (opts : Opts) (st : ScanSt) : ScanSt :=
  stageLiquidEnd ctx (stageLiquidStart ctx (stageMath ctx opts (stageCode ctx opts st)))

theorem midState_inv (ctx : Ctx) (opts : Opts) (wf : WfMarks ctx) (st : ScanSt)
    (h : ScanInv ctx st) : ScanInv ctx (midState ctx opts st) :=
  stageLiquidEnd_inv ctx wf _ (stageLiquidStart_inv ctx wf _
    (stageMath_inv ctx opts wf _ (stageCode_inv ctx opts wf _ h)))

theorem midState_pos (ctx : Ctx) (opts : Opts) (wf : WfMarks ctx) (st : ScanSt)
    (h : ScanInv ctx st) : st.pos ≤ (midState ctx opts st).pos := by
  have h1 := stageCode_pos ctx opts wf st h
  have h2 := stageCode_inv ctx opts wf st h
  have h3 := stageMath_pos ctx opts wf _ h2
  have h4 := stageMath_inv ctx opts wf _ h2
  have h5 := stageLiquidStart_pos ctx wf _ h4
  have h6 := stageLiquidStart_inv ctx wf _ h4
  have h7 := stageLiquidEnd_pos ctx wf _ h6
  rw [midState]
  omega

theorem skipInlineCode_steps_pos (src : List Char) (pos max : Nat) (r : SkipInlineResult)
    (h : skipInlineCode src pos max = some r) : 1 ≤ r.steps := by
  rw [skipInlineCode] at h
  split at h
  · cases h
  · split at h
    · cases h
    · obtain ⟨h1, ms, h2, h3, h4, h5⟩ := codeCloserSearch_sound src max pos _ _ r h
      have h6 := backtickRunEnd_ge src max (ms + 1)
      have h7 := backtickRunEnd_ge src max pos
      omega

theorem skipInlineMath_steps_pos (src : List Char) (pos max : Nat) (r : SkipInlineResult)
    (h : skipInlineMath src pos max = some r) : 1 ≤ r.steps := by
  rw [skipInlineMath] at h
  split at h
  · cases h
  · split at h
    · cases h
    · dsimp only at h
      generalize hnc : (if pos + 1 ≤ max then charAt? src (pos + 1) else none) = nc at h
      split at h
      · cases h
      · split at h
        · cases h
          show (1 : Nat) ≤ 2
          omega
        · rw [mathCloserSearch_spec, specMathCloser] at h
          split at h
          · cases h
          · next q hq =>
            have hm := firstUnescapedDollar_mem src (pos + 1) q hq
            split at h
            · cases h
            · by_cases hcond : (charAt? src (q - 1) = some ' ' ∨ charAt? src (q - 1) = some '\t' ∨
                  (∃ c, (if q + 1 ≤ max then charAt? src (q + 1) else none) = some c ∧
                    '0' ≤ c ∧ c ≤ '9'))
              · rw [if_pos hcond] at h
                cases h
              · rw [if_neg hcond] at h
                cases h
                dsimp only
                omega

theorem step_cont_props (ctx : Ctx) (opts : Opts) (st s : ScanSt) (wf : WfMarks ctx)
    (hinv : ScanInv ctx st) (h : step ctx opts st = .cont s) :
    s.endOfTable = st.endOfTable ∧ st.pos + 1 ≤ s.pos ∧ ScanInv ctx s := by
  have hinvc : ScanInv ctx (stageCode ctx opts st) := stageCode_inv ctx opts wf st hinv
  have hinv1 : ScanInv ctx (stageMath ctx opts (stageCode ctx opts st)) :=
    stageMath_inv ctx opts wf _ hinvc
  have hpos1 : st.pos ≤ (stageMath ctx opts (stageCode ctx opts st)).pos := by
    have a1 := stageCode_pos ctx opts wf st hinv
    have a2 := stageMath_pos ctx opts wf _ hinvc
    omega
  have hinv2 : ScanInv ctx (midState ctx opts st) := midState_inv ctx opts wf st hinv
  have hpos2 : st.pos ≤ (midState ctx opts st).pos := midState_pos ctx opts wf st hinv
  simp only [midState] at hinv2 hpos2
  rw [step] at h
  cases hc : charAt? ctx.src st.pos with
  | none => rw [hc] at h; exact StepOut.noConfusion h
  | some c =>
    rw [hc] at h
    dsimp only at h
    split at h
    · cases h
      refine ⟨by simp, ?_, nextN_inv ctx wf _ 1 hinv1⟩
      have := nextN_pos ctx wf _ 1 hinv1
      omega
    · split at h
      · cases h
        refine ⟨by simp, ?_, nextN_inv ctx wf _ 1 hinv2⟩
        have := nextN_pos ctx wf _ 1 hinv2
        omega
      · split at h
        · next r heq =>
          cases h
          have hr : 1 ≤ r.steps := by
            split at heq
            · exact skipInlineCode_steps_pos _ _ _ _ heq
            · exact Option.noConfusion heq
          refine ⟨by simp, ?_, nextN_inv ctx wf _ r.steps hinv2⟩
          have := nextN_pos ctx wf _ r.steps hinv2
          omega
        · split at h
          · next r heq =>
            cases h
            have hr : 1 ≤ r.steps := by
              split at heq
              · exact skipInlineMath_steps_pos _ _ _ _ heq
              · exact Option.noConfusion heq
            refine ⟨by simp, ?_, nextN_inv ctx wf _ r.steps hinv2⟩
            have := nextN_pos ctx wf _ r.steps hinv2
            omega
          · split at h
            · -- open fence
              cases h
              refine ⟨by simp, ?_, nextN_inv ctx wf _ openTableOrder.length (by exact hinv2)⟩
              refine Nat.le_trans ?_ (nextN_pos ctx wf _ openTableOrder.length (by exact hinv2))
              dsimp only
              norm_num [openTableOrder]
              omega
            · split at h
              · -- close fence
                split at h
                · exact StepOut.noConfusion h
                · cases h
                  refine ⟨by simp, ?_,
                    nextN_inv ctx wf _ closeTableOrder.length (by exact hinv2)⟩
                  refine Nat.le_trans ?_
                    (nextN_pos ctx wf _ closeTableOrder.length (by exact hinv2))
                  dsimp only
                  norm_num [closeTableOrder]
                  omega
              · split at h
                · -- inside nested table
                  cases h
                  refine ⟨by simp, ?_, nextN_inv ctx wf _ 1 hinv2⟩
                  have := nextN_pos ctx wf _ 1 hinv2
                  omega
                · split at h
                  · -- row marker
                    cases h
                    dsimp only
                    refine ⟨?_, ?_, ?_⟩
                    · split <;> simp
                    · split
                      · refine Nat.le_trans ?_ (nextN_pos ctx wf _ rowStartOrder.length
                          (addRow_inv ctx _ hinv2))
                        simp only [addRow_pos]
                        norm_num [rowStartOrder]
                        omega
                      · dsimp only
                        refine Nat.le_trans ?_
                          (nextN_pos ctx wf _ rowStartOrder.length hinv2)
                        norm_num [rowStartOrder]
                        omega
                    · split
                      · exact nextN_inv ctx wf _ rowStartOrder.length (addRow_inv ctx _ hinv2)
                      · exact nextN_inv ctx wf _ rowStartOrder.length hinv2
                  · split at h
                    · -- cell marker
                      cases h
                      dsimp only
                      refine ⟨?_, ?_, ?_⟩
                      · split <;> simp
                      · split
                        · refine Nat.le_trans ?_ (nextN_pos ctx wf _ cellStartOrder.length
                            (by exact hinv2))
                          dsimp only
                          norm_num [cellStartOrder]
                          omega
                        · refine Nat.le_trans ?_
                            (nextN_pos ctx wf _ cellStartOrder.length hinv2)
                          norm_num [cellStartOrder]
                          omega
                      · split
                        · exact nextN_inv ctx wf _ cellStartOrder.length (by exact hinv2)
                        · exact nextN_inv ctx wf _ cellStartOrder.length hinv2
                    · -- plain character
                      cases h
                      refine ⟨by simp, ?_, nextN_inv ctx wf _ 1 hinv2⟩
                      have := nextN_pos ctx wf _ 1 hinv2
                      omega

/-- The guard conditions under which one loop iteration takes the
break branch for a top-level close fence: no fence or liquid mode is
active after the fall-through stages, the inline skips fail, the
position holds a close fence and not an open fence, and the nesting
level is zero. -/
structure CloseGuardCore (ctx : Ctx) (opts : Opts) (st : ScanSt) : Prop where
  someChar : ∃ c, charAt? ctx.src st.pos = some c
  codeOff : (midState ctx opts st).isInsideCode = false
  mathOff : (midState ctx opts st).isInsideMath = false
  liquidOff : (midState ctx opts st).isInsideLiquidVariable = false
  inlineCodeNone : (if opts.table_ignoreSplittersInInlineCode = true then
      skipInlineCode ctx.src (midState ctx opts st).pos (midState ctx opts st).lineEnds
    else none) = none
  inlineMathNone : (if opts.table_ignoreSplittersInInlineMath = true then
      skipInlineMath ctx.src (midState ctx opts st).pos (midState ctx opts st).lineEnds
    else none) = none
  notOpen : isOpenTableOrder ctx.src (midState ctx opts st).pos = false
  isClose : isCloseTableOrder ctx.src (midState ctx opts st).pos = true
  levelZero : (midState ctx opts st).tableLevel = 0

/-- The state produced by the close-fence break branch. -/
def closeBrkResult (ctx : Ctx) (opts : Opts) (st : ScanSt) : ScanSt :=
  let s3 := (addRow (midState ctx opts st)).nextN ctx closeTableOrder.length
  { s3 with endOfTable := some (s3.line + 2) }

theorem step_brk_props (ctx : Ctx) (opts : Opts) (st s : ScanSt)
    (h : step ctx opts st = .brk s) :
    (charAt? ctx.src st.pos = none ∧ s = st) ∨
    (CloseGuardCore ctx opts st ∧ s = closeBrkResult ctx opts st) := by
  rw [step] at h
  cases hc : charAt? ctx.src st.pos with
  | none =>
    rw [hc] at h
    cases h
    exact Or.inl ⟨rfl, rfl⟩
  | some c =>
    rw [hc] at h
    dsimp only at h
    split at h
    · exact StepOut.noConfusion h
    · next hn1 =>
      split at h
      · exact StepOut.noConfusion h
      · next hn2 =>
        split at h
        · exact StepOut.noConfusion h
        · next heqC =>
          split at h
          · exact StepOut.noConfusion h
          · next heqM =>
            split at h
            · exact StepOut.noConfusion h
            · next hno =>
              split at h
              · next hyc =>
                split at h
                · next hz =>
                  cases h
                  refine Or.inr ⟨?_, ?_⟩
                  · refine ⟨⟨c, hc⟩, ?_, ?_, ?_, ?_, ?_, ?_, ?_, ?_⟩ <;>
                      simp only [midState, stageLiquidEnd_isInsideCode,
                        stageLiquidStart_isInsideCode, stageLiquidEnd_isInsideMath,
                        stageLiquidStart_isInsideMath]
                    · cases hb : (stageMath ctx opts (stageCode ctx opts st)).isInsideCode
                      · rfl
                      · exact absurd (Or.inl hb) hn1
                    · cases hb : (stageMath ctx opts (stageCode ctx opts st)).isInsideMath
                      · rfl
                      · exact absurd (Or.inr hb) hn1
                    · cases hb : (stageLiquidEnd ctx (stageLiquidStart ctx
                          (stageMath ctx opts (stageCode ctx opts st)))).isInsideLiquidVariable
                      · rfl
                      · exact absurd hb hn2
                    · exact heqC
                    · exact heqM
                    · cases hb : isOpenTableOrder ctx.src (stageLiquidEnd ctx
                          (stageLiquidStart ctx (stageMath ctx opts
                            (stageCode ctx opts st)))).pos
                      · rfl
                      · exact absurd hb hno
                    · exact hyc
                    · exact hz
                  · rw [closeBrkResult]
                    simp only [midState]
                · exact StepOut.noConfusion h
              · split at h
                · exact StepOut.noConfusion h
                · split at h
                  · exact StepOut.noConfusion h
                  · split at h
                    · exact StepOut.noConfusion h
                    · exact StepOut.noConfusion h

theorem closeGuardCore_step (ctx : Ctx) (opts : Opts) (st : ScanSt)
    (h : CloseGuardCore ctx opts st) :
    step ctx opts st = .brk (closeBrkResult ctx opts st) := by
  obtain ⟨⟨c, hc⟩, h1, h2, h3, h4, h5, h6, h7, h8⟩ := h
  simp only [midState, stageLiquidEnd_isInsideCode, stageLiquidStart_isInsideCode,
    stageLiquidEnd_isInsideMath, stageLiquidStart_isInsideMath] at h1 h2 h3 h4 h5 h6 h7 h8
  rw [step, hc]
  dsimp only
  rw [if_neg (by rw [h1, h2]; simp)]
  rw [if_neg (by rw [h3]; simp)]
  rw [h4]
  dsimp only
  rw [h5]
  dsimp only
  rw [if_neg (by rw [h6]; simp), if_pos h7, if_pos h8]
  rw [closeBrkResult]
  simp only [midState]

theorem close_fence_pos_bound (ctx : Ctx) (wf : WfMarks ctx) (st : ScanSt)
    (hinv : ScanInv ctx st) (hclose : isCloseTableOrder ctx.src st.pos = true) :
    st.pos + 2 ≤ st.lineEnds := by
  simp only [isCloseTableOrder, closeTableOrder, checkCharsOrder, Bool.and_eq_true,
    decide_eq_true_eq] at hclose
  obtain ⟨hp, hh, -⟩ := hclose
  have hnl := wf.nl st.line
  have h1 : st.pos ≠ ctx.eMarks st.line := by
    intro he
    rcases hnl with hx | hx
    · rw [← he, hp] at hx
      exact absurd (Option.some_injective _ hx) (by decide)
    · rw [← he, hp] at hx
      exact Option.noConfusion hx
  have h2 : st.pos + 1 ≠ ctx.eMarks st.line := by
    intro he
    rcases hnl with hx | hx
    · rw [← he, hh] at hx
      exact absurd (Option.some_injective _ hx) (by decide)
    · rw [← he, hh] at hx
      exact Option.noConfusion hx
  have h3 := hinv.1
  have h4 := hinv.2
  omega

theorem nextN_two_eq (ctx : Ctx) (st : ScanSt) (h : st.pos + 2 ≤ st.lineEnds) :
    st.nextN ctx 2 = { st with pos := st.pos + 2 } := by
  have e1 : st.next1 ctx = { st with pos := st.pos + 1 } := by
    rw [ScanSt.next1, if_neg (by omega)]
  have e2 : ({ st with pos := st.pos + 1 } : ScanSt).next1 ctx =
      { st with pos := st.pos + 2 } := by
    rw [ScanSt.next1, if_neg (by dsimp only; omega)]
  show ((st.next1 ctx).next1 ctx).nextN ctx 0 = _
  rw [e1, e2]
  rfl

theorem closeBrkResult_endOfTable (ctx : Ctx) (opts : Opts) (wf : WfMarks ctx) (st : ScanSt)
    (hinv : ScanInv ctx st)
    (hclose : isCloseTableOrder ctx.src (midState ctx opts st).pos = true) :
    (closeBrkResult ctx opts st).endOfTable = some ((midState ctx opts st).line + 2) := by
  have hinvm : ScanInv ctx (midState ctx opts st) := midState_inv ctx opts wf st hinv
  have hbound := close_fence_pos_bound ctx wf (midState ctx opts st) hinvm hclose
  have hb2 : (addRow (midState ctx opts st)).pos + 2 ≤
      (addRow (midState ctx opts st)).lineEnds := by
    rw [addRow_pos, addRow_lineEnds]
    exact hbound
  have hlen : closeTableOrder.length = 2 := rfl
  rw [closeBrkResult]
  dsimp only
  rw [hlen, nextN_two_eq ctx _ hb2]
  dsimp only
  rw [addRow_line]

/-- One continuing loop transition: the loop condition holds and the
iteration does not break. -/
def ContStep (ctx : Ctx) (opts : Opts) (endPosition : Nat) (a b : ScanSt) : Prop :=
  a.pos ≤ endPosition ∧ step ctx opts a = .cont b

/-- Reachability inside one scan run. -/
def ScanReaches (ctx : Ctx) (opts : Opts) (endPosition : Nat) : ScanSt → ScanSt → Prop :=
  Relation.ReflTransGen (ContStep ctx opts endPosition)

/-- The matching top-level close fence is found at a state: the loop
condition holds there and the close-fence break guards are met. -/
def CloseGuard (ctx : Ctx) (opts : Opts) (endPosition : Nat) (st : ScanSt) : Prop :=
  st.pos ≤ endPosition ∧ CloseGuardCore ctx opts st

theorem scanLoop_some_close (ctx : Ctx) (opts : Opts) (endPos : Nat) (wf : WfMarks ctx) :
    ∀ fuel st out b, ScanInv ctx st → st.endOfTable = none →
      scanLoop ctx opts endPos fuel st = (out, b) →
      ∀ e, out.endOfTable = some e →
      ∃ st', ScanReaches ctx opts endPos st st' ∧ CloseGuard ctx opts endPos st' ∧
        e = (midState ctx opts st').line + 2 := by
  intro fuel
  induction fuel with
  | zero =>
    intro st out b hinv hnone hsc e he
    rw [scanLoop] at hsc
    cases hsc
    rw [hnone] at he
    exact Option.noConfusion he
  | succ fuel ih =>
    intro st out b hinv hnone hsc e he
    rw [scanLoop] at hsc
    split at hsc
    · next hle =>
      cases hstep : step ctx opts st with
      | brk s =>
        rw [hstep] at hsc
        cases hsc
        rcases step_brk_props ctx opts st out hstep with ⟨hcn, rfl⟩ | ⟨hg, rfl⟩
        · rw [hnone] at he
          exact Option.noConfusion he
        · refine ⟨st, Relation.ReflTransGen.refl, ⟨hle, hg⟩, ?_⟩
          have hval := closeBrkResult_endOfTable ctx opts wf st hinv hg.isClose
          rw [hval] at he
          exact (Option.some_injective _ he).symm
      | cont s =>
        rw [hstep] at hsc
        obtain ⟨heot, hpos, hinvs⟩ := step_cont_props ctx opts st s wf hinv hstep
        obtain ⟨st', hr, hg, he'⟩ := ih s out b hinvs (by rw [heot, hnone]) hsc e he
        exact ⟨st', Relation.ReflTransGen.head ⟨hle, hstep⟩ hr, hg, he'⟩
    · cases hsc
      rw [hnone] at he
      exact Option.noConfusion he

theorem scanLoop_close_some (ctx : Ctx) (opts : Opts) (endPos : Nat) (wf : WfMarks ctx)
    (st st' : ScanSt) (hreach : ScanReaches ctx opts endPos st st') :
    ScanInv ctx st → CloseGuard ctx opts endPos st' →
    ∀ fuel, endPos + 2 - st.pos ≤ fuel →
    (scanLoop ctx opts endPos fuel st).2 = true ∧
    ((scanLoop ctx opts endPos fuel st).1).endOfTable.isSome = true := by
  induction hreach using Relation.ReflTransGen.head_induction_on with
  | refl =>
    intro hinv hguard fuel hfuel
    obtain ⟨hle, hcore⟩ := hguard
    cases fuel with
    | zero => omega
    | succ f =>
      rw [scanLoop, if_pos hle, closeGuardCore_step ctx opts st' hcore]
      constructor
      · rfl
      · have hval := closeBrkResult_endOfTable ctx opts wf st' hinv hcore.isClose
        dsimp only
        rw [hval]
        rfl
  | head hstep hrtg ih =>
    next a c =>
    intro hinv hguard fuel hfuel
    obtain ⟨hle, hcont⟩ := hstep
    obtain ⟨heot, hpos, hinvs⟩ := step_cont_props ctx opts _ _ wf hinv hcont
    cases fuel with
    | zero => omega
    | succ f =>
      rw [scanLoop, if_pos hle, hcont]
      exact ih hinvs hguard f (by omega)

theorem scanLoop_completes (ctx : Ctx) (opts : Opts) (endPos : Nat) (wf : WfMarks ctx) :
    ∀ fuel st, ScanInv ctx st → endPos + 2 - st.pos ≤ fuel → 1 ≤ fuel →
      (scanLoop ctx opts endPos fuel st).2 = true := by
  intro fuel
  induction fuel with
  | zero =>
    intro st _ _ h1
    omega
  | succ fuel ih =>
    intro st hinv hb h1
    rw [scanLoop]
    split
    · next hle =>
      cases hstep : step ctx opts st with
      | brk s => rfl
      | cont s =>
        obtain ⟨_, hpos, hinvs⟩ := step_cont_props ctx opts st s wf hinv hstep
        exact ih s hinvs (by omega) (by omega)
    · rfl

/-- C2: for well-formed line marks, the scan terminates (the loop
finishes within its fuel rather than running out), and endOfTable is
present exactly when the scan reaches a state where the top-level
close fence guards hold; its value is then exactly two lines past the
line containing that matching top-level close fence. -/
theorem claim2_balanced_fences (ctx : Ctx) (opts : Opts)
    (startPosition endPosition startLine : Nat) (wf : WfMarks ctx)
    (hinit : startPosition + openTableOrder.length ≤ ctx.eMarks startLine) :
    (scanLoop ctx opts endPosition (endPosition + 2)
        (initScanSt ctx startPosition startLine)).2 = true ∧
    (∀ e, (getTableRowPositions ctx opts startPosition endPosition startLine).endOfTable =
        some e →
      ∃ st', ScanReaches ctx opts endPosition (initScanSt ctx startPosition startLine) st' ∧
        CloseGuard ctx opts endPosition st' ∧ e = (midState ctx opts st').line + 2) ∧
    ((∃ st', ScanReaches ctx opts endPosition (initScanSt ctx startPosition startLine) st' ∧
        CloseGuard ctx opts endPosition st') →
      ((getTableRowPositions ctx opts startPosition endPosition startLine).endOfTable).isSome
        = true) := by
  have hinv0 : ScanInv ctx (initScanSt ctx startPosition startLine) := ⟨hinit, rfl⟩
  refine ⟨?_, ?_, ?_⟩
  · exact scanLoop_completes ctx opts endPosition wf (endPosition + 2) _ hinv0
      (by omega) (by omega)
  · intro e he
    exact scanLoop_some_close ctx opts endPosition wf (endPosition + 2) _ _ _ hinv0 rfl
      rfl e he
  · rintro ⟨st', hr, hg⟩
    exact (scanLoop_close_some ctx opts endPosition wf _ st' hr hinv0 hg
      (endPosition + 2) (by omega)).2

theorem demoCtxA_wf : WfMarks demoCtxA := by
  constructor
  · intro l
    rcases l with _ | _ | n
    · decide
    · decide
    · simp only [demoCtxA, demoEMarksA, demoBMarksA]
      omega
  · intro l
    rcases l with _ | _ | n
    · decide
    · decide
    · simp only [demoCtxA, demoEMarksA, demoBMarksA]
      omega
  · intro l
    rcases l with _ | _ | n
    · exact Or.inl (by decide)
    · exact Or.inr (by decide)
    · refine Or.inr (charAt?_eq_none _ _ ?_)
      simp only [demoCtxA, demoSrcA, demoEMarksA, List.length_cons, List.length_nil]
      omega

/-- Witness for C2: on the concrete two-line table the hypotheses hold
and endOfTable is 3, two lines past the close fence on line 1. -/
theorem claim2_balanced_fences_witness :
    ∃ st', ScanReaches demoCtxA {} 13 (initScanSt demoCtxA 0 0) st' ∧
      CloseGuard demoCtxA {} 13 st' ∧ 3 = (midState demoCtxA {} st').line + 2 :=
  (claim2_balanced_fences demoCtxA {} 0 13 0 demoCtxA_wf (by decide)).2.1 3
    (by
      set_option maxHeartbeats 1600000 in
      simp [getTableRowPositions, scanLoop, step, initScanSt, stageCode, stageMath,
        stageLiquidStart, stageLiquidEnd, addRow, ScanSt.nextN, ScanSt.next1, charAt?,
        demoCtxA, demoSrcA, demoBMarksA, demoEMarksA,
        isCodeBlockOrder, isMathBlockOrder,
        isLiquidVariableStart, isLiquidVariableEnd, isOpenTableOrder, isCloseTableOrder,
        isRowOrder, isCellOrder, checkCharsOrder, escapeWalk, isEscaped, notEscaped,
        rowStartTruthy, Function.update, codeBlockOrder, mathBlockOrder,
        liquidVariableStartOrder, liquidVariableEndOrder, openTableOrder, closeTableOrder,
        rowStartOrder, cellStartOrder, pipeChar, hashChar, apostropheChar, dollarChar,
        backSlashChar, curlyBraceOpen, curlyBraceClose])

/-! ## Tokens and the host state -/

/-- A markdown-it token, restricted to the fields this plugin reads or
writes.  The meta field models meta.markForDeletion. -/
structure Tok where
  type : String
  tag : String
  nesting : Int
  level : Int
  hidden : Bool := false
  map : Option (Nat × Nat) := none
  attrs : List (String × String) := []
  meta : Bool := false
  content : String := ""
  markup : String := ""
deriving DecidableEq, Repr, Inhabited

/-- Token.attrSet of markdown-it: replace the attribute when present,
append it otherwise. -/
def Tok.attrSet (t : Tok) (name value : String) : Tok :=
  if t.attrs.any (fun p => p.1 == name) then
    { t with attrs := t.attrs.map (fun p => if p.1 == name then (name, value) else p) }
  else { t with attrs := t.attrs ++ [(name, value)] }

/-- Token.attrJoin of markdown-it: join with a space when present,
append otherwise. -/
def Tok.attrJoin (t : Tok) (name value : String) : Tok :=
  if t.attrs.any (fun p => p.1 == name) then
    { t with attrs := t.attrs.map (fun p =>
        if p.1 == name then (p.1, p.2 ++ " " ++ value) else p) }
  else { t with attrs := t.attrs ++ [(name, value)] }

/-- The host StateBlock, restricted to the fields this plugin reads or
writes.  The line-boundary tables are total functions as in Ctx. -/
structure HostState where
  src : List Char
  bMarks : Nat → Nat
  tShift : Nat → Nat
  eMarks : Nat → Nat
  lineMax : Nat
  line : Nat
  level : Int
  tokens : List Tok

/-- StateBlock.push of markdown-it: the token level bookkeeping drops
the level before a closing token and raises it after an opening one. -/
def HostState.push (st : HostState) (type tag : String) (nesting : Int) : HostState :=
  let lvl := if nesting < 0 then st.level - 1 else st.level
  { st with
    level := if nesting > 0 then lvl + 1 else lvl,
    tokens := st.tokens ++ [{ type := type, tag := tag, nesting := nesting, level := lvl }] }

/-- Mutation of the token object just returned by push: rewrite the
last token of the stream. -/
def setLast : List Tok → (Tok → Tok) → List Tok
  | [], _ => []
  | [t], f => [f t]
  | t :: ts, f => t :: setLast (ts) f

def HostState.withLast (st : HostState) (f : Tok → Tok) : HostState :=
  { st with tokens := setLast st.tokens f }

theorem setLast_append_singleton (ts : List Tok) (t : Tok) (f : Tok → Tok) :
    setLast (ts ++ [t]) f = ts ++ [f t] := by
  induction ts with
  | nil => rfl
  | cons a ts ih =>
    cases ts with
    | nil => rfl
    | cons b ts => simpa [setLast] using ih

/-- processCell: the per-cell body of the tree builder loop in the
yfmTable rule (push td_open with map, override the cell's line bounds,
run the host block tokenizer on the cell range, capture the content,
push td_close with map, restore the bounds, then extract a trailing
class).  The host tokenizer and extractAndApplyClassFromToken (a
regex-based token rewrite touching only the two tokens) are
parameters.  The result carries the index of the td_open token and the
captured content string. -/
def processCell (tokenizeO : HostState → Nat → Nat → HostState)
    (classO : Tok → Tok → Tok × Tok)
    (st : HostState) (begin_ end_ : Stats) : HostState × Nat × String :=
  let tdIdx := st.tokens.length
  let st := (st.push "yfm_td_open" "td" 1).withLast
    (fun t => { t with map := some (begin_.line, end_.line) })
  let oldTshift := st.tShift begin_.line
  let oldEMark := st.eMarks end_.line
  let oldBMark := st.bMarks begin_.line
  let oldLineMax := st.lineMax
  let st := { st with
    tShift := Function.update st.tShift begin_.line 0,
    bMarks := Function.update st.bMarks begin_.line begin_.pos,
    eMarks := Function.update st.eMarks end_.line end_.pos,
    lineMax := end_.line + 1 }
  let st := tokenizeO st begin_.line (end_.line + 1)
  let contentIdx := st.tokens.length - 2
  let contentTok := (st.tokens.get? contentIdx).getD default
  let content := if contentTok.content.trim ≠ "" then contentTok.content.trim
    else contentTok.markup.trim
  let st := (st.push "yfm_td_close" "td" (-1)).withLast
    (fun t => { t with map := some (end_.line, end_.line + 1) })
  let st := { st with
    lineMax := oldLineMax,
    tShift := Function.update st.tShift begin_.line oldTshift,
    bMarks := Function.update st.bMarks begin_.line oldBMark,
    eMarks := Function.update st.eMarks end_.line oldEMark }
  let cTok := (st.tokens.get? contentIdx).getD default
  let tdTok := (st.tokens.get? tdIdx).getD default
  let pair := classO cTok tdTok
  let st := { st with tokens := (st.tokens.set contentIdx pair.1).set tdIdx pair.2 }
  (st, tdIdx, content)

/-- One row of the tree builder: tr_open with map, the cells, padding
with empty td pairs up to maxRowLength, tr_close.  Returns the td_open
indices and captured contents of the scanned (non-padding) cells. -/
def processRow (tokenizeO : HostState → Nat → Nat → HostState)
    (classO : Tok → Tok → Tok × Tok) (maxRowLength : Nat) (st : HostState)
    (row : Nat × Nat × List (Stats × Stats)) : HostState × List Nat × List String :=
  let st := (st.push "yfm_tr_open" "tr" 1).withLast
    (fun t => { t with map := some (row.1, row.2.1) })
  let acc := row.2.2.foldl (fun (acc : HostState × List Nat × List String) col =>
      let r := processCell tokenizeO classO acc.1 col.1 col.2
      (r.1, acc.2.1 ++ [r.2.1], acc.2.2 ++ [r.2.2])) (st, [], [])
  let st := acc.1
  let st := if row.2.2.length < maxRowLength then
      (List.range (maxRowLength - row.2.2.length)).foldl (fun st _ =>
        (st.push "yfm_td_open" "td" 1).push "yfm_td_close" "td" (-1)) st
    else st
  let st := st.push "yfm_tr_close" "tr" (-1)
  (st, acc.2.1, acc.2.2)

/-- The full row loop of the tree builder, accumulating cellsMap and
contentMap (as td_open token indices and content strings). -/
def buildRows (tokenizeO : HostState → Nat → Nat → HostState)
    (classO : Tok → Tok → Tok × Tok) (maxRowLength : Nat) (st : HostState)
    (rows : List (Nat × Nat × List (Stats × Stats))) :
    HostState × List (List Nat) × List (List String) :=
  rows.foldl (fun acc row =>
      let r := processRow tokenizeO classO maxRowLength acc.1 row
      (r.1, acc.2.1 ++ [r.2.1], acc.2.2 ++ [r.2.2])) (st, [], [])

/-- Mark the token at an index for deletion (meta.markForDeletion);
a missing index is a no-op in the model (the rule only produces
indices of existing td_open tokens). -/
def markAt (tokens : List Tok) (idx? : Option Nat) : List Tok :=
  match idx? with
  | some i =>
    match tokens.get? i with
    | some t => tokens.set i { t with meta := true }
    | none => tokens
  | none => tokens

/-- attrSet on the token at an index; missing index is a no-op. -/
def setAttrAt (tokens : List Tok) (idx? : Option Nat) (name value : String) : List Tok :=
  match idx? with
  | some i =>
    match tokens.get? i with
    | some t => tokens.set i (t.attrSet name value)
    | none => tokens
  | none => tokens

def cmGet (cm : List (List String)) (i j : Nat) : Option String :=
  (cm.get? i).bind (fun row => row.get? j)

def cellIdx (cells : List (List Nat)) (i j : Nat) : Option Nat :=
  (cells.get? i).bind (fun row => row.get? j)

def COLSPAN_SYMBOL : String := ">"

def ROWSPAN_SYMBOL : String := "^"

/-- The backward column scan of applySpans: the first argument is the
current column plus one (zero means the loop ran past column 0). -/
def colspanScan (cm : List (List String)) (cells : List (List Nat)) (i : Nat) :
    Nat → Nat → List Tok → List Tok
  | 0, _, tokens => tokens
  | colP1 + 1, factor, tokens =>
    let col := colP1
    if cmGet cm i col = some COLSPAN_SYMBOL then
      colspanScan cm cells i col (factor + 1) (markAt tokens (cellIdx cells i col))
    else if cmGet cm i col = some ROWSPAN_SYMBOL then tokens
    else setAttrAt tokens (cellIdx cells i col) "colspan" (toString factor)

/-- The upward row scan of applySpans. -/
def rowspanScan (cm : List (List String)) (cells : List (List Nat)) (j : Nat) :
    Nat → Nat → List Tok → List Tok
  | 0, _, tokens => tokens
  | rowP1 + 1, factor, tokens =>
    let row := rowP1
    if cmGet cm row j = some ROWSPAN_SYMBOL then
      rowspanScan cm cells j row (factor + 1) (markAt tokens (cellIdx cells row j))
    else if cmGet cm row j = some COLSPAN_SYMBOL then tokens
    else setAttrAt tokens (cellIdx cells row j) "rowspan" (toString factor)

/-- The body of applySpans for one (i, j) coordinate. -/
def applySpansCell (cm : List (List String)) (cells : List (List Nat)) (i j : Nat)
    (tokens : List Tok) : List Tok :=
  let tokens := if cmGet cm i j = some COLSPAN_SYMBOL then
      if j = 0 then tokens
      else colspanScan cm cells i j 2 (markAt tokens (cellIdx cells i j))
    else tokens
  if cmGet cm i j = some ROWSPAN_SYMBOL then
    if i = 0 then tokens
    else rowspanScan cm cells j i 2 (markAt tokens (cellIdx cells i j))
  else tokens

/-- applySpans: traverse the content map row-major; the inner loop is
bounded by the width of the FIRST row of the content map, as in the
source. -/
def applySpans (cm : List (List String)) (cells : List (List Nat))
    (tokens : List Tok) : List Tok :=
  (List.range cm.length).foldl (fun tokens i =>
    (List.range (cm.headD []).length).foldl (fun tokens j =>
      applySpansCell cm cells i j tokens) tokens) tokens

/-- The forward search of clearTokens for the matching td_close at the
same level, scanning the suffix beginning at an index. -/
def findFrom (lvl : Int) : List Tok → Nat → Option Nat
  | [], _ => none
  | t :: ts, j =>
    if t.type = "yfm_td_close" ∧ t.level = lvl then some j else findFrom lvl ts (j + 1)

def findTdClose (tokens : List Tok) (lvl : Int) (j : Nat) : Option Nat :=
  findFrom lvl (tokens.drop j) j

/-- The splice-collection loop of clearTokens: for every token from
tableStart on that is marked for deletion, record its index and the
matching close index; unshift makes the list descending. -/
def buildSplices (tokens : List Tok) (tableStart : Nat) : List (Nat × Option Nat) :=
  (List.range tokens.length).foldl (fun acc i =>
    if tableStart ≤ i ∧ ((tokens.get? i).getD default).meta = true then
      (i, findTdClose tokens ((tokens.get? i).getD default).level (i + 1)) :: acc
    else acc) []

/-- The splice-application loop: each complete pair with truthy start
and end removes the token range; a pair lacking its close is skipped. -/
def applySplices (splices : List (Nat × Option Nat)) (tokens : List Tok) : List Tok :=
  splices.foldl (fun ts se =>
    match se.2 with
    | some e => if se.1 ≠ 0 ∧ e ≠ 0 then ts.take se.1 ++ ts.drop (e + 1) else ts
    | none => ts) tokens

def clearTokens (tableStart : Nat) (tokens : List Tok) : List Tok :=
  applySplices (buildSplices tokens tableStart) tokens

/-- skipSpaces of the host StateBlock: advance over spaces and tabs. -/
def skipSpacesAux : List Char → Nat → Nat
  | c :: rest, p => if c = ' ' ∨ c = '\t' then skipSpacesAux rest (p + 1) else p
  | [], p => p

def skipSpacesFrom (src : List Char) (pos : Nat) : Nat :=
  skipSpacesAux (src.drop pos) pos

/-- extractAttributes: skip spaces, slice the rest of the buffer and
hand it to the external attribute parser (an oracle). -/
def extractAttributes (attrsParseO : String → List (String × List String))
    (st : HostState) (pos : Nat) : List (String × List String) :=
  let attrsStringStart := skipSpacesFrom st.src pos
  attrsParseO (String.mk (st.src.drop attrsStringStart))

def joinSpace (l : List String) : String := String.intercalate " " l

/-- The yfmTable block rule.  The host block tokenizer, the
extractAndApplyClassFromToken token rewrite and the external
AttrsParser are parameters; everything else is translated from the
source.  The Bool result is the match decision of the rule. -/
def yfmTableRule (tokenizeO : HostState → Nat → Nat → HostState)
    (classO : Tok → Tok → Tok × Tok)
    (attrsParseO : String → List (String × List String))
    (opts : Opts) (st : HostState) (startLine endLine : Nat) (silent : Bool) :
    Bool × HostState :=
  let startPosition := st.bMarks startLine + st.tShift startLine
  let endPosition := st.eMarks endLine
  if endPosition - startPosition < 2 then (false, st)
  else if isOpenTableOrder st.src startPosition = false then (false, st)
  else if silent then (true, st)
  else
    let ctx : Ctx :=
      { src := st.src, bMarks := st.bMarks, tShift := st.tShift, eMarks := st.eMarks }
    let rp := getTableRowPositions ctx opts startPosition endPosition startLine
    let attrs := extractAttributes attrsParseO st rp.pos
    match rp.endOfTable with
    | none =>
      let st := (st.push "__yfm_lint" "" 0).withLast (fun t =>
        ({ t with hidden := true, map := some (startLine, endLine) }).attrSet
          "YFM004" "true")
      (false, st)
    | some endOfTable =>
      let oldParentLineMax := st.lineMax
      let st := { st with lineMax := endOfTable, line := startLine }
      let tableStart := st.tokens.length
      let st := st.push "yfm_table_open" "table" 1
      let fullAttrs := attrs.filter (fun p => p.1 ≠ "attr")
      let singleKeyAttrs := ((attrs.find? (fun p => p.1 = "attr")).map Prod.snd).getD []
      let st := fullAttrs.foldl (fun st p =>
        st.withLast (fun t => t.attrJoin p.1 (joinSpace p.2))) st
      let st := singleKeyAttrs.foldl (fun st a =>
        st.withLast (fun t => t.attrJoin a "true")) st
      let st := st.withLast (fun t => { t with map := some (startLine, endOfTable) })
      let st := (st.push "yfm_tbody_open" "tbody" 1).withLast
        (fun t => { t with map := some (startLine + 1, endOfTable - 1) })
      let maxRowLength := (rp.rows.map (fun r => r.2.2.length)).foldl Nat.max 0
      let acc := buildRows tokenizeO classO maxRowLength st rp.rows
      let st := acc.1
      let cellsMap := acc.2.1
      let contentMap := acc.2.2
      let st := { st with tokens := applySpans contentMap cellsMap st.tokens }
      let st := { st with tokens := clearTokens tableStart st.tokens }
      let st := st.push "yfm_tbody_close" "tbody" (-1)
      let st := (st.push "yfm_table_close" "table" (-1)).withLast
        (fun t => { t with map := some (endOfTable, endOfTable + 1) })
      let st := { st with lineMax := oldParentLineMax, line := endOfTable }
      (true, st)

/-- C4: when the opening fence is present, the region is long enough,
the rule is not probing silently, and the scan finds no top-level
close fence (endOfTable is absent), the rule returns non-match and the
token stream receives exactly one hidden diagnostic token typed
__yfm_lint carrying YFM004 and the line range, with no table, tbody,
tr or td tokens emitted. -/
theorem claim4_unterminated_table
    (tokenizeO : HostState → Nat → Nat → HostState)
    (classO : Tok → Tok → Tok × Tok)
    (attrsParseO : String → List (String × List String))
    (opts : Opts) (st : HostState) (startLine endLine : Nat)
    (h1 : ¬(st.eMarks endLine - (st.bMarks startLine + st.tShift startLine) < 2))
    (h2 : isOpenTableOrder st.src (st.bMarks startLine + st.tShift startLine) = true)
    (h4 : (getTableRowPositions
        { src := st.src, bMarks := st.bMarks, tShift := st.tShift, eMarks := st.eMarks }
        opts (st.bMarks startLine + st.tShift startLine) (st.eMarks endLine)
        startLine).endOfTable = none) :
    yfmTableRule tokenizeO classO attrsParseO opts st startLine endLine false =
      (false, { st with tokens := st.tokens ++
        [{ type := "__yfm_lint", tag := "", nesting := 0, level := st.level,
           hidden := true, map := some (startLine, endLine),
           attrs := [("YFM004", "true")] }] }) := by
  rw [yfmTableRule]
  rw [if_neg h1, if_neg (by simp [h2]), if_neg (by simp)]
  dsimp only
  rw [h4]
  simp [HostState.push, HostState.withLast, setLast_append_singleton, Tok.attrSet]

def wTokenizeO : HostState → Nat → Nat → HostState := fun s _ _ => s

def wClassO : Tok → Tok → Tok × Tok := fun c t => (c, t)

def wAttrsO : String → List (String × List String) := fun _ => []

/-- The host state for the unterminated-table witness: the single-line
buffer opens a fence that is never closed. -/
def demoHostU : HostState :=
  { src := ['#', '|', ' ', 'a'],
    bMarks := fun n => match n with | 0 => 0 | n + 1 => 5 + n,
    tShift := fun _ => 0,
    eMarks := fun n => match n with | 0 => 4 | n + 1 => 5 + n,
    lineMax := 1, line := 0, level := 0, tokens := [] }

/-- Witness for C4 on the concrete unterminated input. -/
theorem claim4_unterminated_table_witness :
    yfmTableRule wTokenizeO wClassO wAttrsO {} demoHostU 0 0 false =
      (false, { demoHostU with tokens :=
        [{ type := "__yfm_lint", tag := "", nesting := 0, level := 0,
           hidden := true, map := some (0, 0),
           attrs := [("YFM004", "true")] }] }) :=
  claim4_unterminated_table wTokenizeO wClassO wAttrsO {} demoHostU 0 0
    (by decide) (by decide)
    (by
      set_option maxHeartbeats 1600000 in
      simp [getTableRowPositions, scanLoop, step, initScanSt, stageCode, stageMath,
        stageLiquidStart, stageLiquidEnd, addRow, ScanSt.nextN, ScanSt.next1, charAt?,
        demoHostU, isCodeBlockOrder, isMathBlockOrder,
        isLiquidVariableStart, isLiquidVariableEnd, isOpenTableOrder, isCloseTableOrder,
        isRowOrder, isCellOrder, checkCharsOrder, escapeWalk, isEscaped, notEscaped,
        rowStartTruthy, Function.update, codeBlockOrder, mathBlockOrder,
        liquidVariableStartOrder, liquidVariableEndOrder, openTableOrder, closeTableOrder,
        rowStartOrder, cellStartOrder, pipeChar, hashChar, apostropheChar, dollarChar,
        backSlashChar, curlyBraceOpen, curlyBraceClose])

/-- C9: the four line-boundary fields overridden around one cell's
sub-tokenization (tShift at the begin line, bMarks at the begin line,
eMarks at the end line, and lineMax) are restored to exactly their
pre-call values by processCell, provided the host tokenizer leaves
those four fields unchanged, so sibling cells and the outer scan see
unaffected boundary state. -/
theorem claim9_cell_bounds_restored
    (tokenizeO : HostState → Nat → Nat → HostState)
    (classO : Tok → Tok → Tok × Tok)
    (hT1 : ∀ s a b, (tokenizeO s a b).tShift = s.tShift)
    (hT2 : ∀ s a b, (tokenizeO s a b).bMarks = s.bMarks)
    (hT3 : ∀ s a b, (tokenizeO s a b).eMarks = s.eMarks)
    (hT4 : ∀ s a b, (tokenizeO s a b).lineMax = s.lineMax)
    (st : HostState) (begin_ end_ : Stats) :
    (processCell tokenizeO classO st begin_ end_).1.tShift = st.tShift ∧
    (processCell tokenizeO classO st begin_ end_).1.bMarks = st.bMarks ∧
    (processCell tokenizeO classO st begin_ end_).1.eMarks = st.eMarks ∧
    (processCell tokenizeO classO st begin_ end_).1.lineMax = st.lineMax := by
  rw [processCell]
  dsimp only
  simp only [HostState.push, HostState.withLast]
  simp only [hT1, hT2, hT3, hT4]
  refine ⟨?_, ?_, ?_, trivial⟩
  · rw [Function.update_idem]
    exact Function.update_eq_self _ _
  · rw [Function.update_idem]
    exact Function.update_eq_self _ _
  · rw [Function.update_idem]
    exact Function.update_eq_self _ _

/-- A concrete host state for the C9 witness. -/
def demoHost9 : HostState :=
  { src := ['a', 'b'], bMarks := fun _ => 0, tShift := fun _ => 0,
    eMarks := fun _ => 2, lineMax := 1, line := 0, level := 0, tokens := [] }

def demoTokenize9 : HostState → Nat → Nat → HostState :=
  fun s _ _ => s.push "paragraph" "p" 0

/-- Witness for C9 with a tokenizer that appends a paragraph token. -/
theorem claim9_cell_bounds_restored_witness :
    (processCell demoTokenize9 wClassO demoHost9 ⟨0, 0⟩ ⟨0, 2⟩).1.tShift = demoHost9.tShift ∧
    (processCell demoTokenize9 wClassO demoHost9 ⟨0, 0⟩ ⟨0, 2⟩).1.bMarks = demoHost9.bMarks ∧
    (processCell demoTokenize9 wClassO demoHost9 ⟨0, 0⟩ ⟨0, 2⟩).1.eMarks = demoHost9.eMarks ∧
    (processCell demoTokenize9 wClassO demoHost9 ⟨0, 0⟩ ⟨0, 2⟩).1.lineMax = demoHost9.lineMax :=
  claim9_cell_bounds_restored demoTokenize9 wClassO
    (fun s a b => rfl) (fun s a b => rfl) (fun s a b => rfl) (fun s a b => rfl)
    demoHost9 ⟨0, 0⟩ ⟨0, 2⟩

/-! ## Compaction as index filtering -/

/-- Keep the tokens whose index is not marked for removal; the counter
is the index of the head of the list. -/
def keepIdx (rm : Nat → Bool) : List Tok → Nat → List Tok
  | [], _ => []
  | t :: ts, k => if rm k then keepIdx rm ts (k + 1) else t :: keepIdx rm ts (k + 1)

theorem keepIdx_append (rm : Nat → Bool) (A B : List Tok) (k : Nat) :
    keepIdx rm (A ++ B) k = keepIdx rm A k ++ keepIdx rm B (k + A.length) := by
  induction A generalizing k with
  | nil => simp [keepIdx]
  | cons a A ih =>
    rw [List.cons_append, keepIdx, keepIdx, ih (k + 1)]
    have hlen : k + 1 + A.length = k + (A.length + 1) := by omega
    rw [hlen]
    split <;> simp

theorem keepIdx_all_true (rm : Nat → Bool) (ts : List Tok) (k : Nat)
    (h : ∀ idx, k ≤ idx → idx < k + ts.length → rm idx = true) :
    keepIdx rm ts k = [] := by
  induction ts generalizing k with
  | nil => rfl
  | cons t ts ih =>
    rw [keepIdx, if_pos (h k (Nat.le_refl _) (by simp))]
    exact ih (k + 1) (fun idx h1 h2 => h idx (by omega) (by simp at h2 ⊢; omega))

theorem keepIdx_all_false (rm : Nat → Bool) (ts : List Tok) (k : Nat)
    (h : ∀ idx, k ≤ idx → idx < k + ts.length → rm idx = false) :
    keepIdx rm ts k = ts := by
  induction ts generalizing k with
  | nil => rfl
  | cons t ts ih =>
    rw [keepIdx, if_neg (by rw [h k (Nat.le_refl _) (by simp)]; simp)]
    rw [ih (k + 1) (fun idx h1 h2 => h idx (by omega) (by simp at h2 ⊢; omega))]

theorem keepIdx_congr (rm rm' : Nat → Bool) (ts : List Tok) (k : Nat)
    (h : ∀ idx, k ≤ idx → idx < k + ts.length → rm idx = rm' idx) :
    keepIdx rm ts k = keepIdx rm' ts k := by
  induction ts generalizing k with
  | nil => rfl
  | cons t ts ih =>
    rw [keepIdx, keepIdx, h k (Nat.le_refl _) (by simp),
      ih (k + 1) (fun idx h1 h2 => h idx (by omega) (by simp at h2 ⊢; omega))]

/-- Which indices a splice list removes. -/
def spliceCovered (S : List (Nat × Option Nat)) (idx : Nat) : Bool :=
  S.any (fun se => match se.2 with
    | some e => decide (se.1 ≤ idx ∧ idx ≤ e)
    | none => false)

theorem spliceCovered_cons_none (s : Nat) (S : List (Nat × Option Nat)) (idx : Nat) :
    spliceCovered ((s, none) :: S) idx = spliceCovered S idx := by
  simp [spliceCovered]

theorem spliceCovered_cons_some (s e : Nat) (S : List (Nat × Option Nat)) (idx : Nat) :
    spliceCovered ((s, some e) :: S) idx =
      (decide (s ≤ idx ∧ idx ≤ e) || spliceCovered S idx) := by
  simp [spliceCovered]

theorem applySplices_eq_keepIdx (S : List (Nat × Option Nat)) :
    ∀ ts : List Tok,
      (∀ p ∈ S, ∀ e, p.2 = some e → 0 < p.1 ∧ p.1 ≤ e ∧ e < ts.length) →
      S.Pairwise (fun p q => ∀ e', q.2 = some e' → e' < p.1) →
      applySplices S ts = keepIdx (spliceCovered S) ts 0 := by
  induction S with
  | nil =>
    intro ts _ _
    rw [applySplices]
    simp only [List.foldl_nil]
    rw [keepIdx_all_false]
    intro idx _ _
    simp [spliceCovered]
  | cons hd S ih =>
    intro ts hok hpw
    obtain ⟨s, e?⟩ := hd
    cases e? with
    | none =>
      rw [applySplices, List.foldl_cons]
      dsimp only
      show applySplices S ts = _
      rw [ih ts (fun p hp e he => hok p (List.mem_cons_of_mem _ hp) e he)
        (List.Pairwise.sublist (List.sublist_cons_self _ _) hpw)]
      exact (keepIdx_congr _ _ ts 0 (fun idx _ _ =>
        (spliceCovered_cons_none s S idx).symm))
    | some e =>
      obtain ⟨hs0, hse, helen⟩ := hok (s, some e) (List.mem_cons_self _ _) e rfl
      have hrest_below : ∀ p ∈ S, ∀ e', p.2 = some e' → e' < s := by
        intro p hp e' he'
        exact (List.pairwise_cons.mp hpw).1 p hp e' he'
      have hrestS_false : ∀ idx, s ≤ idx → spliceCovered S idx = false := by
        intro idx h1
        rw [spliceCovered, List.any_eq_false]
        intro p hp
        cases hp2 : p.2 with
        | none => simp
        | some e' =>
          have := hrest_below p hp e' hp2
          simp only [decide_eq_true_eq]
          omega
      rw [applySplices, List.foldl_cons]
      dsimp only
      rw [if_pos ⟨by omega, by omega⟩]
      show applySplices S (ts.take s ++ ts.drop (e + 1)) = _
      have hslen : s ≤ ts.length := by omega
      have htake : (ts.take s).length = s := by
        rw [List.length_take]
        omega
      have hts' : ∀ p ∈ S, ∀ e', p.2 = some e' →
          0 < p.1 ∧ p.1 ≤ e' ∧ e' < (ts.take s ++ ts.drop (e + 1)).length := by
        intro p hp e' he'
        obtain ⟨a, b, c⟩ := hok p (List.mem_cons_of_mem _ hp) e' he'
        have := hrest_below p hp e' he'
        refine ⟨a, b, ?_⟩
        rw [List.length_append, htake]
        omega
      rw [ih _ hts' (List.Pairwise.sublist (List.sublist_cons_self _ _) hpw)]
      rw [keepIdx_append _ _ _ 0, htake]
      have hdropkeep : keepIdx (spliceCovered S) (ts.drop (e + 1)) (0 + s) =
          ts.drop (e + 1) := by
        apply keepIdx_all_false
        intro idx h1 h2
        exact hrestS_false idx (by omega)
      rw [hdropkeep]
      have hmidlen : ((ts.drop s).take (e + 1 - s)).length = e + 1 - s := by
        rw [List.length_take, List.length_drop]
        omega
      have hdecomp : ts = ts.take s ++ ((ts.drop s).take (e + 1 - s) ++ ts.drop (e + 1)) := by
        have h1 : (ts.drop s).drop (e + 1 - s) = ts.drop (e + 1) := by
          rw [List.drop_drop]
          congr 1
          omega
        calc ts = ts.take s ++ ts.drop s := (List.take_append_drop s ts).symm
          _ = ts.take s ++ ((ts.drop s).take (e + 1 - s) ++ (ts.drop s).drop (e + 1 - s)) := by
              rw [List.take_append_drop (e + 1 - s) (ts.drop s)]
          _ = _ := by rw [h1]
      conv_rhs => rw [hdecomp]
      rw [keepIdx_append _ _ _ 0, htake, keepIdx_append, hmidlen]
      have hmid : keepIdx (spliceCovered ((s, some e) :: S)) ((ts.drop s).take (e + 1 - s))
          (0 + s) = [] := by
        apply keepIdx_all_true
        intro idx h1 h2
        rw [hmidlen] at h2
        rw [spliceCovered_cons_some]
        have hin : s ≤ idx ∧ idx ≤ e := by omega
        simp [hin]
      rw [hmid]
      have hfirst : keepIdx (spliceCovered ((s, some e) :: S)) (ts.take s) 0 =
          keepIdx (spliceCovered S) (ts.take s) 0 := by
        apply keepIdx_congr
        intro idx h1 h2
        rw [htake] at h2
        rw [spliceCovered_cons_some]
        have hno : ¬(s ≤ idx ∧ idx ≤ e) := by omega
        simp [hno]
      rw [hfirst]
      have hlast : keepIdx (spliceCovered ((s, some e) :: S)) (ts.drop (e + 1))
          (0 + s + (e + 1 - s)) = ts.drop (e + 1) := by
        apply keepIdx_all_false
        intro idx h1 h2
        rw [spliceCovered_cons_some]
        have hno : ¬(s ≤ idx ∧ idx ≤ e) := by omega
        have hr := hrestS_false idx (by omega)
        simp [hno, hr]
      rw [hlast]
      simp

theorem foldl_if_prepend (l : List Nat) (P : Nat → Prop) [DecidablePred P]
    (f : Nat → Nat × Option Nat) :
    ∀ acc, l.foldl (fun acc i => if P i then f i :: acc else acc) acc =
      ((l.filter (fun i => decide (P i))).map f).reverse ++ acc := by
  induction l with
  | nil => intro acc; simp
  | cons a l ih =>
    intro acc
    rw [List.foldl_cons]
    by_cases h : P a
    · rw [if_pos h, ih]
      simp [List.filter_cons, h]
    · rw [if_neg h, ih]
      simp [List.filter_cons, h]

theorem buildSplices_eq (tokens : List Tok) (tableStart : Nat) :
    buildSplices tokens tableStart =
      (((List.range tokens.length).filter (fun i =>
          decide (tableStart ≤ i ∧ ((tokens.get? i).getD default).meta = true))).map
        (fun i => (i, findTdClose tokens ((tokens.get? i).getD default).level (i + 1)))).reverse := by
  rw [buildSplices]
  rw [foldl_if_prepend (List.range tokens.length)
    (fun i => tableStart ≤ i ∧ ((tokens.get? i).getD default).meta = true)
    (fun i => (i, findTdClose tokens ((tokens.get? i).getD default).level (i + 1))) []]
  simp

theorem findFrom_bounds (lvl : Int) :
    ∀ (ts : List Tok) (j j' : Nat), findFrom lvl ts j = some j' →
      j ≤ j' ∧ j' < j + ts.length := by
  intro ts
  induction ts with
  | nil => intro j j' h; exact Option.noConfusion h
  | cons t ts ih =>
    intro j j' h
    rw [findFrom] at h
    split at h
    · cases h
      simp
    · have := ih (j + 1) j' h
      simp only [List.length_cons]
      omega

theorem findTdClose_bounds (tokens : List Tok) (lvl : Int) (j j' : Nat)
    (h : findTdClose tokens lvl j = some j') : j ≤ j' ∧ j' < tokens.length := by
  rw [findTdClose] at h
  have hb := findFrom_bounds lvl (tokens.drop j) j j' h
  rw [List.length_drop] at hb
  by_cases hj : j ≤ tokens.length
  · omega
  · rw [List.drop_eq_nil_of_le (by omega)] at h
    exact Option.noConfusion h

/-- Which indices clearTokens removes: those lying between a
marked-for-deletion token (at or after tableStart) and its matching
close token. -/
def coveredB (tokens : List Tok) (tableStart : Nat) (idx : Nat) : Bool :=
  (List.range tokens.length).any (fun i =>
    decide (tableStart ≤ i) && ((tokens.get? i).getD default).meta &&
    (match findTdClose tokens ((tokens.get? i).getD default).level (i + 1) with
     | some j => decide (i ≤ idx ∧ idx ≤ j)
     | none => false))

theorem spliceCovered_buildSplices (tokens : List Tok) (tableStart idx : Nat) :
    spliceCovered (buildSplices tokens tableStart) idx = coveredB tokens tableStart idx := by
  rw [Bool.eq_iff_iff, buildSplices_eq, spliceCovered, coveredB]
  simp only [List.any_eq_true, List.mem_reverse, List.mem_map, List.mem_filter,
    List.mem_range, decide_eq_true_eq, Bool.and_eq_true]
  constructor
  · rintro ⟨se, ⟨i, ⟨hir, hcond⟩, rfl⟩, hm⟩
    exact ⟨i, hir, ⟨by simpa using hcond.1, by simpa using hcond.2⟩, hm⟩
  · rintro ⟨i, hir, ⟨h1, h2⟩, hm⟩
    refine ⟨(i, findTdClose tokens ((tokens.get? i).getD default).level (i + 1)),
      ⟨i, ⟨hir, ?_⟩, rfl⟩, hm⟩
    exact ⟨h1, by simpa [List.get?_eq_getElem?] using h2⟩

/-- C8: during compaction, every cell token marked for deletion whose
matching close token (the first td_close at the same level, scanning
forward) exists is removed together with that close token and
everything between them; a marked token with no discoverable matching
close is skipped entirely, leaving the stream untouched at that
deletion.  The splices are applied as a batch in descending
start-index order, and under the disjointness of the marked ranges
(and marked indices being positive, as every td_open sits after the
table_open token) the result is exactly the index-based filtering of
the covered ranges. -/
theorem claim8_compaction (tableStart : Nat) (tokens : List Tok)
    (Hpos : ∀ i, i < tokens.length → tableStart ≤ i →
      ((tokens.get? i).getD default).meta = true → 0 < i)
    (Hdisj : ∀ i1 i2, i1 < i2 → i2 < tokens.length → tableStart ≤ i1 → tableStart ≤ i2 →
      ((tokens.get? i1).getD default).meta = true →
      ((tokens.get? i2).getD default).meta = true →
      (match findTdClose tokens ((tokens.get? i1).getD default).level (i1 + 1) with
       | some j1 => j1 < i2
       | none => True)) :
    clearTokens tableStart tokens = keepIdx (coveredB tokens tableStart) tokens 0 := by
  rw [clearTokens]
  have hok : ∀ p ∈ buildSplices tokens tableStart, ∀ e, p.2 = some e →
      0 < p.1 ∧ p.1 ≤ e ∧ e < tokens.length := by
    intro p hp e he
    rw [buildSplices_eq] at hp
    simp only [List.mem_reverse, List.mem_map, List.mem_filter, List.mem_range,
      decide_eq_true_eq] at hp
    obtain ⟨i, ⟨hir, hcond⟩, rfl⟩ := hp
    dsimp only at he ⊢
    have hb := findTdClose_bounds tokens _ (i + 1) e he
    exact ⟨Hpos i hir hcond.1 hcond.2, by omega, hb.2⟩
  have hpw : (buildSplices tokens tableStart).Pairwise
      (fun p q => ∀ e', q.2 = some e' → e' < p.1) := by
    rw [buildSplices_eq]
    rw [List.pairwise_reverse]
    rw [List.pairwise_map]
    refine List.Pairwise.imp_of_mem ?_
      (List.Pairwise.filter _ (List.pairwise_lt_range _))
    intro a b ha hb hlt e' he'
    simp only [List.mem_filter, List.mem_range, decide_eq_true_eq] at ha hb
    dsimp only at he'
    have := Hdisj a b hlt hb.1 ha.2.1 hb.2.1 ha.2.2 hb.2.2
    rw [he'] at this
    exact this
  rw [applySplices_eq_keepIdx _ tokens hok hpw]
  exact keepIdx_congr _ _ _ _ (fun idx _ _ => spliceCovered_buildSplices tokens tableStart idx)

def demoToks8 : List Tok :=
  [ { type := "yfm_table_open", tag := "table", nesting := 1, level := 0 },
    { type := "yfm_tr_open", tag := "tr", nesting := 1, level := 1 },
    { type := "yfm_td_open", tag := "td", nesting := 1, level := 2, meta := true },
    { type := "inline", tag := "", nesting := 0, level := 3, content := "a" },
    { type := "yfm_td_close", tag := "td", nesting := -1, level := 2 },
    { type := "yfm_td_open", tag := "td", nesting := 1, level := 2, meta := true },
    { type := "yfm_td_close", tag := "td", nesting := -1, level := 2 },
    { type := "yfm_tr_close", tag := "tr", nesting := -1, level := 1 } ]

theorem claim8_compaction_witness :
    clearTokens 0 demoToks8 = keepIdx (coveredB demoToks8 0) demoToks8 0 :=
  claim8_compaction 0 demoToks8
    (by decide)
    (by
      intro i1 i2 h1 h2 _ _ hm1 hm2
      have hd : ∀ a, a < 8 → ∀ b, b < 8 → a < b →
          ((demoToks8.get? a).getD default).meta = true →
          ((demoToks8.get? b).getD default).meta = true →
          ((findTdClose demoToks8 ((demoToks8.get? a).getD default).level (a + 1)).all
            (fun j1 => decide (j1 < b))) = true := by decide
      have h2n : i2 < 8 := by simpa [demoToks8] using h2
      have hres := hd i1 (by omega) i2 h2n h1 hm1 hm2
      cases hfc : findTdClose demoToks8 ((demoToks8.get? i1).getD default).level (i1 + 1) with
      | none => trivial
      | some j1 =>
        rw [hfc] at hres
        simpa [Option.all] using hres)

/-! C7: the shape of the content map handed to applySpans, and the
coordinates applySpans actually visits. -/

theorem processCells_content_length (tokO : HostState → Nat → Nat → HostState)
    (classO : Tok → Tok → Tok × Tok) (cols : List (Stats × Stats))
    (acc : HostState × List Nat × List String) :
    (cols.foldl (fun (acc : HostState × List Nat × List String) col =>
      let r := processCell tokO classO acc.1 col.1 col.2
      (r.1, acc.2.1 ++ [r.2.1], acc.2.2 ++ [r.2.2])) acc).2.2.length
      = acc.2.2.length + cols.length := by
  induction cols generalizing acc with
  | nil => simp
  | cons c cols ih =>
    rw [List.foldl_cons, ih]
    dsimp only
    rw [List.length_append]
    simp
    omega

theorem processRow_content_length (tokO : HostState → Nat → Nat → HostState)
    (classO : Tok → Tok → Tok × Tok) (m : Nat) (st : HostState)
    (row : Nat × Nat × List (Stats × Stats)) :
    (processRow tokO classO m st row).2.2.length = row.2.2.length := by
  rw [processRow]
  dsimp only
  rw [processCells_content_length]
  simp

theorem buildRows_contentMap_aux (tokO : HostState → Nat → Nat → HostState)
    (classO : Tok → Tok → Tok × Tok) (m : Nat)
    (rows : List (Nat × Nat × List (Stats × Stats)))
    (acc : HostState × List (List Nat) × List (List String)) :
    ((rows.foldl (fun acc row =>
      let r := processRow tokO classO m acc.1 row
      (r.1, acc.2.1 ++ [r.2.1], acc.2.2 ++ [r.2.2])) acc).2.2).map List.length
      = (acc.2.2).map List.length ++ rows.map (fun r => r.2.2.length) := by
  induction rows generalizing acc with
  | nil => simp
  | cons r rows ih =>
    rw [List.foldl_cons, ih]
    dsimp only
    rw [List.map_append]
    simp [processRow_content_length]

theorem buildRows_contentMap_lengths (tokO : HostState → Nat → Nat → HostState)
    (classO : Tok → Tok → Tok × Tok) (m : Nat) (st : HostState)
    (rows : List (Nat × Nat × List (Stats × Stats))) :
    ((buildRows tokO classO m st rows).2.2).map List.length
      = rows.map (fun r => r.2.2.length) := by
  rw [buildRows, buildRows_contentMap_aux]
  simp

theorem colspanScan_congr (cm cm' : List (List String)) (cells cells' : List (List Nat))
    (nR w : Nat)
    (hcm : ∀ a, a < nR → ∀ b, b < w → cmGet cm a b = cmGet cm' a b)
    (hcl : ∀ a, a < nR → ∀ b, b < w → cellIdx cells a b = cellIdx cells' a b)
    (i : Nat) (hi : i < nR) :
    ∀ colP1, colP1 ≤ w → ∀ factor tokens,
      colspanScan cm cells i colP1 factor tokens
        = colspanScan cm' cells' i colP1 factor tokens := by
  intro colP1
  induction colP1 with
  | zero => intro _ factor tokens; rfl
  | succ c ih =>
    intro hle factor tokens
    have e1 : cmGet cm i c = cmGet cm' i c := hcm i hi c (by omega)
    have e2 : cellIdx cells i c = cellIdx cells' i c := hcl i hi c (by omega)
    rw [colspanScan, colspanScan]
    rw [← e1, ← e2]
    split
    · exact ih (by omega) _ _
    · rfl

theorem rowspanScan_congr (cm cm' : List (List String)) (cells cells' : List (List Nat))
    (nR w : Nat)
    (hcm : ∀ a, a < nR → ∀ b, b < w → cmGet cm a b = cmGet cm' a b)
    (hcl : ∀ a, a < nR → ∀ b, b < w → cellIdx cells a b = cellIdx cells' a b)
    (j : Nat) (hj : j < w) :
    ∀ rowP1, rowP1 ≤ nR → ∀ factor tokens,
      rowspanScan cm cells j rowP1 factor tokens
        = rowspanScan cm' cells' j rowP1 factor tokens := by
  intro rowP1
  induction rowP1 with
  | zero => intro _ factor tokens; rfl
  | succ r ih =>
    intro hle factor tokens
    have e1 : cmGet cm r j = cmGet cm' r j := hcm r (by omega) j hj
    have e2 : cellIdx cells r j = cellIdx cells' r j := hcl r (by omega) j hj
    rw [rowspanScan, rowspanScan]
    rw [← e1, ← e2]
    split
    · exact ih (by omega) _ _
    · rfl

theorem applySpansCell_congr (cm cm' : List (List String)) (cells cells' : List (List Nat))
    (nR w : Nat)
    (hcm : ∀ a, a < nR → ∀ b, b < w → cmGet cm a b = cmGet cm' a b)
    (hcl : ∀ a, a < nR → ∀ b, b < w → cellIdx cells a b = cellIdx cells' a b)
    (i j : Nat) (hi : i < nR) (hj : j < w) (tokens : List Tok) :
    applySpansCell cm cells i j tokens = applySpansCell cm' cells' i j tokens := by
  have e1 : cmGet cm i j = cmGet cm' i j := hcm i hi j hj
  have e2 : cellIdx cells i j = cellIdx cells' i j := hcl i hi j hj
  have hcs : colspanScan cm' cells' i j = colspanScan cm cells i j :=
    funext fun factor => funext fun tokens =>
      (colspanScan_congr cm cm' cells cells' nR w hcm hcl i hi j (by omega) factor tokens).symm
  have hrs : rowspanScan cm' cells' j i = rowspanScan cm cells j i :=
    funext fun factor => funext fun tokens =>
      (rowspanScan_congr cm cm' cells cells' nR w hcm hcl j hj i (by omega) factor tokens).symm
  rw [applySpansCell, applySpansCell, ← e1, ← e2, hcs, hrs]

theorem applySpans_congr (cm cm' : List (List String)) (cells cells' : List (List Nat))
    (hlen : cm.length = cm'.length)
    (hw : (cm.headD []).length = (cm'.headD []).length)
    (hcm : ∀ a, a < cm.length → ∀ b, b < (cm.headD []).length → cmGet cm a b = cmGet cm' a b)
    (hcl : ∀ a, a < cm.length → ∀ b, b < (cm.headD []).length →
      cellIdx cells a b = cellIdx cells' a b)
    (tokens : List Tok) :
    applySpans cm cells tokens = applySpans cm' cells' tokens := by
  rw [applySpans, applySpans, ← hlen, ← hw]
  apply List.foldl_ext
  intro t i hi
  apply List.foldl_ext
  intro t2 j hj
  rw [List.mem_range] at hi hj
  exact applySpansCell_congr cm cm' cells cells' cm.length (cm.headD []).length
    hcm hcl i j hi hj t2

/-- A table whose first row has one cell and second row two cells. -/
def demoSrcC : List Char :=
  ['#', '|', '\n',
   '|', '|', ' ', 'a', ' ', '|', '|', '\n',
   '|', '|', ' ', 'b', ' ', '|', ' ', 'c', ' ', '|', '|', '\n',
   '|', '#']

def demoBMarksC : Nat → Nat
  | 0 => 0
  | 1 => 3
  | 2 => 11
  | 3 => 23
  | n + 4 => 26 + n

def demoEMarksC : Nat → Nat
  | 0 => 2
  | 1 => 10
  | 2 => 22
  | 3 => 25
  | n + 4 => 26 + n

def demoCtxC : Ctx :=
  { src := demoSrcC, bMarks := demoBMarksC, tShift := fun _ => 0, eMarks := demoEMarksC }

/-- A ragged content map with a colspan symbol outside the first-row
width, its cell map, and the token stream they address. -/
def cmC : List (List String) := [["a"], ["b", ">"]]

def cellsC : List (List Nat) := [[2], [5, 7]]

def toksC : List Tok :=
  [ { type := "yfm_table_open", tag := "table", nesting := 1, level := 0 },
    { type := "yfm_tr_open", tag := "tr", nesting := 1, level := 1 },
    { type := "yfm_td_open", tag := "td", nesting := 1, level := 2 },
    { type := "yfm_td_close", tag := "td", nesting := -1, level := 2 },
    { type := "yfm_tr_open", tag := "tr", nesting := 1, level := 1 },
    { type := "yfm_td_open", tag := "td", nesting := 1, level := 2 },
    { type := "yfm_td_close", tag := "td", nesting := -1, level := 2 },
    { type := "yfm_td_open", tag := "td", nesting := 1, level := 2 },
    { type := "yfm_td_close", tag := "td", nesting := -1, level := 2 },
    { type := "yfm_tr_close", tag := "tr", nesting := -1, level := 1 } ]

/-- C7 counterexample: on a scanned table whose rows have one and two
cells, the content map handed to the span resolver keeps those ragged
row lengths (no padding to the maximum width 2), the coordinate
(0, 1) with column index below the maximum width is absent, and the
span resolver, whose inner loop is bounded by the FIRST row width,
never visits the coordinate (1, 1) even though a colspan symbol there
would mark and rewrite tokens. -/
theorem claim7_counterexample :
    (getTableRowPositions demoCtxC {} 0 25 0).rows.map (fun r => r.2.2.length) = [1, 2]
    ∧ ((buildRows wTokenizeO wClassO 2 demoHostU
        (getTableRowPositions demoCtxC {} 0 25 0).rows).2.2).map List.length = [1, 2]
    ∧ cmGet ((buildRows wTokenizeO wClassO 2 demoHostU
        (getTableRowPositions demoCtxC {} 0 25 0).rows).2.2) 0 1 = none
    ∧ applySpans cmC cellsC toksC = toksC
    ∧ cmGet cmC 1 1 = some COLSPAN_SYMBOL
    ∧ applySpansCell cmC cellsC 1 1 toksC ≠ toksC := by
  have h1 : (getTableRowPositions demoCtxC {} 0 25 0).rows.map
      (fun r => r.2.2.length) = [1, 2] := by
    set_option maxHeartbeats 3000000 in
    simp [getTableRowPositions, scanLoop, step, initScanSt, stageCode, stageMath,
      stageLiquidStart, stageLiquidEnd, addRow, ScanSt.nextN, ScanSt.next1, charAt?,
      demoCtxC, demoSrcC, demoBMarksC, demoEMarksC,
      isCodeBlockOrder, isMathBlockOrder,
      isLiquidVariableStart, isLiquidVariableEnd, isOpenTableOrder, isCloseTableOrder,
      isRowOrder, isCellOrder, checkCharsOrder, escapeWalk, isEscaped, notEscaped,
      rowStartTruthy, Function.update, codeBlockOrder, mathBlockOrder,
      liquidVariableStartOrder, liquidVariableEndOrder, openTableOrder, closeTableOrder,
      rowStartOrder, cellStartOrder, pipeChar, hashChar, apostropheChar, dollarChar,
      backSlashChar, curlyBraceOpen, curlyBraceClose]
  have h2 : ((buildRows wTokenizeO wClassO 2 demoHostU
      (getTableRowPositions demoCtxC {} 0 25 0).rows).2.2).map List.length = [1, 2] := by
    rw [buildRows_contentMap_lengths]
    exact h1
  refine ⟨h1, h2, ?_, by decide, by decide, by decide⟩
  have h3 : ∀ L : List (List String), L.map List.length = [1, 2] → cmGet L 0 1 = none := by
    intro L hL
    cases L with
    | nil => simp at hL
    | cons r0 rest =>
      simp only [List.map_cons, List.cons.injEq] at hL
      have hr0 : r0.get? 1 = none := List.get?_eq_none.mpr (by omega)
      simp [cmGet, hr0]
      omega
  exact h3 _ h2

/-- C7 amended: the content map handed to the span resolver is not
padded; each of its rows has exactly as many entries as the scanned
row has cells (padding adds only empty td token pairs to the emitted
stream).  The span resolver iterates rowIndex below the number of
rows and colIndex below the width of the FIRST row only, so its
result depends only on the entries and cell indices at those
coordinates: two content/cell maps that agree there, with equal row
counts and equal first-row widths, yield identical resolutions. -/
theorem claim7_contentMap_amended
    (tokO : HostState → Nat → Nat → HostState) (classO : Tok → Tok → Tok × Tok)
    (m : Nat) (st : HostState) (rows : List (Nat × Nat × List (Stats × Stats)))
    (cm cm' : List (List String)) (cells cells' : List (List Nat)) (tokens : List Tok)
    (hlen : cm.length = cm'.length)
    (hw : (cm.headD []).length = (cm'.headD []).length)
    (hcm : ∀ a, a < cm.length → ∀ b, b < (cm.headD []).length →
      cmGet cm a b = cmGet cm' a b)
    (hcl : ∀ a, a < cm.length → ∀ b, b < (cm.headD []).length →
      cellIdx cells a b = cellIdx cells' a b) :
    ((buildRows tokO classO m st rows).2.2).map List.length
        = rows.map (fun r => r.2.2.length)
    ∧ applySpans cm cells tokens = applySpans cm' cells' tokens :=
  ⟨buildRows_contentMap_lengths tokO classO m st rows,
    applySpans_congr cm cm' cells cells' hlen hw hcm hcl tokens⟩

def cmC2 : List (List String) := [["a"], ["b"]]

def cellsC2 : List (List Nat) := [[2], [5]]

/-- Witness for the amended C7: dropping the out-of-first-row-width
colspan entry changes nothing in the resolution. -/
theorem claim7_contentMap_amended_witness :
    (((buildRows wTokenizeO wClassO 2 demoHostU []).2.2).map List.length
        = ([] : List (Nat × Nat × List (Stats × Stats))).map (fun r => r.2.2.length))
    ∧ applySpans cmC cellsC toksC = applySpans cmC2 cellsC2 toksC :=
  claim7_contentMap_amended wTokenizeO wClassO 2 demoHostU [] cmC cmC2 cellsC cellsC2
    toksC (by decide) (by decide) (by decide) (by decide)
